import Mathlib

/-!
# BamDamForensics: a shallow embedding of the parsing pipeline

The definitions below transcribe `src/BamDamForensics.cpp`.  Wide strings
(`std::wstring`, NUL-terminated `wchar_t` buffers) are Lean `String`s.  The
operating-system services the program calls (registry, SID lookup, calendar
conversion) are not part of the repository; they are the fields of `Win32`,
and every theorem quantifies over all of them.  The two services of the C++
library that decide what the store operations do are spelled out: `std::sort`
as the routine of the GNU C++ library, and the character conversion of the
wide file stream as the fields of `WideRuntime`.
-/

namespace BamDamForensics

/-! ## Data model -/

/-- The record `struct BamDamEntry` (source lines 58-66). -/
structure BamDamEntry where
  timestamp : String
  sid : String
  username : String
  executablePath : String
  source : String
  notes : String
  fileTimeRaw : Nat
  deriving DecidableEq, Repr

/-- One octet of a registry payload (`BYTE`). -/
abbrev Byte := Fin 256

/-- The Win32 `FILETIME` pair of 32-bit words. -/
structure FILETIME where
  dwLowDateTime : Nat
  dwHighDateTime : Nat
  deriving DecidableEq, Repr

/-- The Win32 `SYSTEMTIME` fields the program prints (each a 16-bit `WORD`). -/
structure SYSTEMTIME where
  wYear : Nat
  wMonth : Nat
  wDay : Nat
  wHour : Nat
  wMinute : Nat
  wSecond : Nat
  wMilliseconds : Nat
  deriving DecidableEq, Repr

/-- A value as `RegEnumValueW` hands it back on `ERROR_SUCCESS`: the
NUL-terminated name written to `valueName`, the `type` tag and the `dataSize`
bytes of `data`.  (A value too large for the 1024-byte `data` buffer is not
handed back; the call then reports an error, a `failure` below.) -/
structure RegValue where
  name : String
  type : Nat
  data : List Byte
  deriving DecidableEq, Repr

/-- What one call of an enumeration API (`RegEnumValueW`, `RegEnumKeyExW`)
returns at an index below the end of the key: an error code other than
`ERROR_SUCCESS` and `ERROR_NO_MORE_ITEMS`, or an item. -/
inductive EnumResult (α : Type) where
  | failure (code : Nat)
  | success (item : α)
  deriving DecidableEq, Repr

/-- An opened registry key: the results the two enumeration APIs return at
index 0, 1, 2, ... up to (excluding) the first `ERROR_NO_MORE_ITEMS`. -/
structure KeyNode where
  subkeys : List (EnumResult String)
  values : List (EnumResult RegValue)
  deriving DecidableEq, Repr

/-- The operating-system services used by the program.
`RegOpenKeyExW path` is the open of `path` under `HKEY_LOCAL_MACHINE` with
`KEY_READ` (`none` for any result other than `ERROR_SUCCESS`);
`ConvertStringSidToSidW` and `LookupAccountSidW` are the two steps of SID
resolution (the latter yields `(name, domain)`); `FileTimeToSystemTime` is
the calendar conversion, `none` when it reports failure. -/
structure Win32 where
  RegOpenKeyExW : String → Option KeyNode
  ConvertStringSidToSidW : String → Option (List Byte)
  LookupAccountSidW : List Byte → Option (String × String)
  FileTimeToSystemTime : FILETIME → Option SYSTEMTIME

/-- The program state touched by parsing: the record store `entries`, and a
log of the arguments of every `SidToUsername` call made so far. -/
structure Store where
  entries : List BamDamEntry
  sidLookups : List String
  deriving DecidableEq, Repr

/-- The registry type tag `REG_BINARY`. -/
def REG_BINARY : Nat := 3

/-! ## Timestamp codec -/

/-- The `printf` conversion `%0<w>d` of a non-negative integer: its decimal
digits, left-padded with `'0'` to at least `w` characters. -/
def fmtZeroPad (w n : Nat) : List Char :=
  let ds := Nat.toDigits 10 n
  List.replicate (w - ds.length) '0' ++ ds

/-- The format `"%02d/%02d/%04d %02d:%02d:%02d.%03d"` applied to day, month,
year, hour, minute, second, millisecond (source lines 116-117). -/
def formatSystemTime (st : SYSTEMTIME) : String :=
  String.mk (fmtZeroPad 2 st.wDay ++ '/' :: fmtZeroPad 2 st.wMonth ++ '/' ::
    fmtZeroPad 4 st.wYear ++ ' ' :: fmtZeroPad 2 st.wHour ++ ':' ::
    fmtZeroPad 2 st.wMinute ++ ':' :: fmtZeroPad 2 st.wSecond ++ '.' ::
    fmtZeroPad 3 st.wMilliseconds)

/-- The method `FileTimeToStringPrecise` (source lines 104-121); `fileTime` is a
`ULONGLONG`, so callers pass a value below `2^64`. -/
def FileTimeToStringPrecise (os : Win32) (fileTime : Nat) : String :=
  if fileTime = 0 then "N/A"
  else
    let ft : FILETIME :=
      { dwLowDateTime := (fileTime &&& 0xFFFFFFFF) % 2 ^ 32
        dwHighDateTime := (fileTime >>> 32) % 2 ^ 32 }
    match os.FileTimeToSystemTime ft with
    | some st => formatSystemTime st
    | none => "Invalide"

/-! ## Identity resolver -/

/-- The method `SidToUsername` (source lines 123-145). -/
def SidToUsername (os : Win32) (sidString : String) : String :=
  match os.ConvertStringSidToSidW sidString with
  | none => "<SID inconnu>"
  | some pSid =>
    match os.LookupAccountSidW pSid with
    | some (name, domain) =>
      if domain.length > 0 then domain ++ "\\" ++ name else name
    | none => "<Inconnu>"

/-! ## Record builder -/

/-- The read `*reinterpret_cast<ULONGLONG*>(data)` on a little-endian machine:
byte `i` of the first eight has weight `256^i`. -/
def readU64LE (data : List Byte) : Nat :=
  (data.take 8).foldr (fun b acc => b.val + 256 * acc) 0

/-- The search `std::wstring::find(needle)` from position 0: the first index at
which `needle` starts in `hay`, or `none` for `npos`. -/
def wfindFrom : List Char → List Char → Nat → Option Nat
  | [], needle, pos => if needle = [] then some pos else none
  | c :: hay, needle, pos =>
    if needle.isPrefixOf (c :: hay) then some pos else wfindFrom hay needle (pos + 1)

/-- The call `s.find(needle)` on wide strings. -/
def wfind (s needle : String) : Option Nat := wfindFrom s.data needle.data 0

/-- The subkey path built by `swprintf_s` in `ParseBamDamKey` (line 149). -/
def subkeyPath (service sid : String) : String :=
  "SYSTEM\\CurrentControlSet\\Services\\" ++ service ++ "\\State\\UserSettings\\" ++ sid

/-- The base path built by `swprintf_s` in `ParseBamDam` (line 232). -/
def basePath (service : String) : String :=
  "SYSTEM\\CurrentControlSet\\Services\\" ++ service ++ "\\State\\UserSettings"

/-- The body of the value loop after the `"Version"` filter (lines 191-212):
the entry built for a successfully enumerated value. -/
def buildEntry (os : Win32) (service sid username : String) (v : RegValue) : BamDamEntry :=
  let path := v.name
  let parsed : Nat × String :=
    if v.data.length ≥ 8 ∧ v.type = REG_BINARY then
      let raw := readU64LE v.data
      (raw, FileTimeToStringPrecise os raw)
    else (0, "Données invalides")
  { timestamp := parsed.2
    sid := sid
    username := username
    executablePath := path
    source := service
    notes := if (wfind path "\\Temp\\").isSome ∨ (wfind path "\\Downloads\\").isSome
      then "Emplacement suspect" else ""
    fileTimeRaw := parsed.1 }

/-- The `while (true)` loop of `ParseBamDamKey` (lines 170-217) run over the
results of `RegEnumValueW` at successive indices; the accumulator is the
store's `entries` and the local `count`.  Reaching the end of the list is the
`ERROR_NO_MORE_ITEMS` break. -/
def enumValues (os : Win32) (service sid username : String) :
    List (EnumResult RegValue) → List BamDamEntry × Nat → List BamDamEntry × Nat
  | [], acc => acc
  | .failure _ :: rest, acc => enumValues os service sid username rest acc
  | .success v :: rest, acc =>
    if v.name = "Version" then enumValues os service sid username rest acc
    else enumValues os service sid username rest
      (acc.1 ++ [buildEntry os service sid username v], acc.2 + 1)

/-- The method `ParseBamDamKey` (lines 147-220): the new state and the returned
`count > 0`. -/
def ParseBamDamKey (os : Win32) (service sid : String) (s : Store) : Store × Bool :=
  match os.RegOpenKeyExW (subkeyPath service sid) with
  | none => (s, false)
  | some key =>
    let username := SidToUsername os sid
    let r := enumValues os service sid username key.values (s.entries, 0)
    ({ entries := r.1, sidLookups := s.sidLookups ++ [sid] }, decide (r.2 > 0))

/-- The inner `while (true)` loop of `ParseBamDam` (lines 247-264) over the
results of `RegEnumKeyExW` at successive indices. -/
def enumSids (os : Win32) (service : String) : List (EnumResult String) → Store → Store
  | [], s => s
  | .failure _ :: rest, s => enumSids os service rest s
  | .success sidName :: rest, s =>
    enumSids os service rest (ParseBamDamKey os service sidName s).1

/-- One iteration of the `for` over `services` in `ParseBamDam` (lines 228-265). -/
def parseService (os : Win32) (s : Store) (service : String) : Store :=
  match os.RegOpenKeyExW (basePath service) with
  | none => s
  | some keyBase => enumSids os service keyBase.subkeys s

/-- The array `services` of `ParseBamDam` (line 226). -/
def services : List String := ["bam", "dam"]

/-- The method `ParseBamDam` (lines 222-269): the store is cleared, both
services are walked, and the result is `!entries.empty()`. -/
def ParseBamDam (os : Win32) (s : Store) : Store × Bool :=
  let s1 := services.foldl (parseService os) { entries := [], sidLookups := s.sidLookups }
  (s1, !s1.entries.isEmpty)

/-! ## Record store operations -/

/-- The comparator lambda passed to `std::sort` in `OnSort` (lines 321-323). -/
def sortComp (a b : BamDamEntry) : Bool := decide (a.fileTimeRaw > b.fileTimeRaw)

/-! ### The library sort

`OnSort` calls `std::sort`, which is not part of the repository.  The
definitions below follow the routine of the GNU C++ library (`bits/stl_algo.h`
and `bits/stl_heap.h`): an introsort that partitions ranges of more than 16
elements around a median of three, falls back to heap sort when the depth
limit is used up, and finishes with an insertion sort.  A range is a list and
iterators are indices into it.  The library's unguarded loops rely on a
sentinel to stop; here they also stop at the ends of the range, which the
library's own loops never pass. -/

/-- Fuelled helper of `lg`. -/
def lgFuel : Nat → Nat → Nat
  | 0, _ => 0
  | fuel + 1, n => if n ≥ 2 then lgFuel fuel (n / 2) + 1 else 0

/-- The helper `std::__lg`: the floor of the binary logarithm. -/
def lg (n : Nat) : Nat := lgFuel n n

/-- The call `std::iter_swap(a + i, a + j)`. -/
def iterSwap {α : Type} (a : List α) (i j : Nat) : List α :=
  match a[i]?, a[j]? with
  | some x, some y => (a.set i y).set j x
  | _, _ => a

/-- The comparison `comp(a + i, a + j)` of two positions of the range. -/
def compAt {α : Type} (comp : α → α → Bool) (a : List α) (i j : Nat) : Bool :=
  match a[i]?, a[j]? with
  | some x, some y => comp x y
  | _, _ => false

/-- The helper `std::__move_median_to_first(result, a, b, c, comp)`. -/
def moveMedianToFirst {α : Type} (comp : α → α → Bool) (a : List α)
    (result ia ib ic : Nat) : List α :=
  if compAt comp a ia ib then
    if compAt comp a ib ic then iterSwap a result ib
    else if compAt comp a ia ic then iterSwap a result ic
    else iterSwap a result ia
  else if compAt comp a ia ic then iterSwap a result ia
  else if compAt comp a ib ic then iterSwap a result ic
  else iterSwap a result ib

/-- The loop `while (comp(first, pivot)) ++first;` of `__unguarded_partition`. -/
def scanUp {α : Type} (comp : α → α → Bool) (a : List α) (pivot : Nat) : Nat → Nat → Nat
  | 0, first => first
  | fuel + 1, first =>
    if compAt comp a first pivot then scanUp comp a pivot fuel (first + 1) else first

/-- The loop `while (comp(pivot, last)) --last;` of `__unguarded_partition`. -/
def scanDown {α : Type} (comp : α → α → Bool) (a : List α) (pivot : Nat) : Nat → Nat
  | 0 => 0
  | last + 1 =>
    if compAt comp a pivot (last + 1) then scanDown comp a pivot last else last + 1

/-- The helper `std::__unguarded_partition(first, last, pivot, comp)`: the range
after the exchanges and the returned cut position. -/
def unguardedPartition {α : Type} (comp : α → α → Bool) (pivot : Nat) :
    Nat → List α → Nat → Nat → List α × Nat
  | 0, a, first, _ => (a, first)
  | fuel + 1, a, first, last =>
    let first1 := scanUp comp a pivot a.length first
    let last1 := scanDown comp a pivot (last - 1)
    if first1 < last1 then
      unguardedPartition comp pivot fuel (iterSwap a first1 last1) (first1 + 1) last1
    else (a, first1)

/-- The helper `std::__unguarded_partition_pivot(first, last, comp)` on the
range `a`. -/
def unguardedPartitionPivot {α : Type} (comp : α → α → Bool) (a : List α) : List α × Nat :=
  let mid := a.length / 2
  let a1 := moveMedianToFirst comp a 0 1 mid (a.length - 1)
  unguardedPartition comp 0 a.length a1 1 a.length

/-- The helper `std::__push_heap(first, holeIndex, topIndex, value, comp)`. -/
def pushHeap {α : Type} (comp : α → α → Bool) (value : α) (topIndex : Nat) :
    Nat → Nat → List α → List α
  | 0, holeIndex, a => a.set holeIndex value
  | fuel + 1, holeIndex, a =>
    let parent := (holeIndex - 1) / 2
    if holeIndex > topIndex then
      match a[parent]? with
      | some p =>
        if comp p value then pushHeap comp value topIndex fuel parent (a.set holeIndex p)
        else a.set holeIndex value
      | none => a.set holeIndex value
    else a.set holeIndex value

/-- The first loop of `std::__adjust_heap`: the hole moves down to the larger
child while it has two children. -/
def siftHole {α : Type} (comp : α → α → Bool) (len : Nat) :
    Nat → Nat → List α → List α × Nat
  | 0, holeIndex, a => (a, holeIndex)
  | fuel + 1, holeIndex, a =>
    if holeIndex < (len - 1) / 2 then
      let secondChild := 2 * (holeIndex + 1)
      let secondChild := if compAt comp a secondChild (secondChild - 1)
        then secondChild - 1 else secondChild
      match a[secondChild]? with
      | some x => siftHole comp len fuel secondChild (a.set holeIndex x)
      | none => (a, holeIndex)
    else (a, holeIndex)

/-- The helper `std::__adjust_heap(first, holeIndex, len, value, comp)`. -/
def adjustHeap {α : Type} (comp : α → α → Bool) (a : List α) (holeIndex len : Nat)
    (value : α) : List α :=
  let s := siftHole comp len len holeIndex a
  let s2 : List α × Nat :=
    if len % 2 = 0 ∧ s.2 = (len - 2) / 2 then
      match s.1[2 * (s.2 + 1) - 1]? with
      | some x => (s.1.set s.2 x, 2 * (s.2 + 1) - 1)
      | none => s
    else s
  pushHeap comp value holeIndex len s2.2 s2.1

/-- The helper `std::__pop_heap(first, last, last, comp)` with `last` given as
an index. -/
def popHeap {α : Type} (comp : α → α → Bool) (a : List α) (last : Nat) : List α :=
  match a[last]?, a[0]? with
  | some value, some top => adjustHeap comp (a.set last top) 0 last value
  | _, _ => a

/-- The helper `std::__sort_heap(first, last, comp)` with `last` as an index. -/
def sortHeap {α : Type} (comp : α → α → Bool) : Nat → List α → List α
  | 0, a => a
  | 1, a => a
  | last + 2, a => sortHeap comp (last + 1) (popHeap comp a (last + 1))

/-- The loop of `std::__make_heap` from `parent` down to `0`. -/
def makeHeapLoop {α : Type} (comp : α → α → Bool) (len : Nat) : Nat → List α → List α
  | 0, a =>
    match a[0]? with
    | some value => adjustHeap comp a 0 len value
    | none => a
  | parent + 1, a =>
    match a[parent + 1]? with
    | some value => makeHeapLoop comp len parent (adjustHeap comp a (parent + 1) len value)
    | none => a

/-- The helper `std::__make_heap(first, last, comp)`. -/
def makeHeap {α : Type} (comp : α → α → Bool) (a : List α) : List α :=
  if a.length < 2 then a else makeHeapLoop comp a.length ((a.length - 2) / 2) a

/-- The call `std::__partial_sort(first, last, last, comp)`: heap sort of the
whole range. -/
def partialSort {α : Type} (comp : α → α → Bool) (a : List α) : List α :=
  sortHeap comp a.length (makeHeap comp a)

/-- The helper `std::__introsort_loop(first, last, depth_limit, comp)` on the
range `a`; the threshold `_S_threshold` is 16. -/
def introsortLoop {α : Type} (comp : α → α → Bool) : Nat → List α → List α
  | 0, a => if a.length > 16 then partialSort comp a else a
  | depth + 1, a =>
    if a.length > 16 then
      let r := unguardedPartitionPivot comp a
      introsortLoop comp depth (r.1.take r.2) ++ introsortLoop comp depth (r.1.drop r.2)
    else a

/-- The helper `std::__unguarded_linear_insert(last, comp)` with the value
`val` taken from position `last`. -/
def unguardedLinearInsert {α : Type} (comp : α → α → Bool) (val : α) : Nat → List α → List α
  | 0, a => a.set 0 val
  | next + 1, a =>
    match a[next]? with
    | some x =>
      if comp val x then unguardedLinearInsert comp val next (a.set (next + 1) x)
      else a.set (next + 1) val
    | none => a.set (next + 1) val

/-- The body of the loop of `std::__insertion_sort` at position `i`. -/
def insertionStep {α : Type} (comp : α → α → Bool) (a : List α) (i : Nat) : List α :=
  match a[i]? with
  | none => a
  | some val =>
    if compAt comp a i 0 then val :: (a.take i ++ a.drop (i + 1))
    else unguardedLinearInsert comp val i a

/-- The body of the loop of `std::__unguarded_insertion_sort` at position `i`. -/
def unguardedInsertionStep {α : Type} (comp : α → α → Bool) (a : List α) (i : Nat) : List α :=
  match a[i]? with
  | none => a
  | some val => unguardedLinearInsert comp val i a

/-- The helper `std::__final_insertion_sort(first, last, comp)`. -/
def finalInsertionSort {α : Type} (comp : α → α → Bool) (a : List α) : List α :=
  if a.length > 16 then
    (List.range' 16 (a.length - 16)).foldl (unguardedInsertionStep comp)
      ((List.range' 1 15).foldl (insertionStep comp) a)
  else (List.range' 1 (a.length - 1)).foldl (insertionStep comp) a

/-- The library routine `std::sort(first, last, comp)` on the range `a`. -/
def stdSort {α : Type} (comp : α → α → Bool) (a : List α) : List α :=
  if a.isEmpty then a
  else finalInsertionSort comp (introsortLoop comp (lg a.length * 2) a)

/-- The method `OnSort` (lines 314-328): an empty store is left alone (message
box only), otherwise the store is sorted by `std::sort` with `sortComp`. -/
def OnSort (entries : List BamDamEntry) : List BamDamEntry :=
  if entries.isEmpty then entries else stdSort sortComp entries

/-- The statement `userCounts[key]++` on a `std::map<std::wstring, int>` held as
its in-order list of pairs: `operator[]` finds the key or inserts it with a
value-initialised `0` at its ordered position, and the value is incremented.
The `int` counter is an unbounded integer here, exact while a store holds
fewer than `2^31` records. -/
def mapIncr : List (String × Int) → String → List (String × Int)
  | [], key => [(key, 0 + 1)]
  | (k, v) :: rest, key =>
    if key = k then (k, v + 1) :: rest
    else if key < k then (key, 0 + 1) :: (k, v) :: rest
    else (k, v) :: mapIncr rest key

/-- The counting loop of `OnFilter` (lines 337-341). -/
def userCounts (entries : List BamDamEntry) : List (String × Int) :=
  entries.foldl (fun m entry => mapIncr m entry.username) []

/-- The method `OnFilter` (lines 330-348) up to the map it builds: `none` when
the store is empty (message box only). -/
def OnFilter (entries : List BamDamEntry) : Option (List (String × Int)) :=
  if entries.isEmpty then none else some (userCounts entries)

/-! ## Export encoder -/

/-- What the C++ runtime fixes for the wide file stream `csv`: `sizeofWchar` is
`sizeof(wchar_t)`, and `narrow c` tells whether the locale of the stream can
convert the wide character `c` to bytes.  The stream `csv` is never imbued
(only `logFile` is, line 518), so this is the conversion of the default
locale. -/
structure WideRuntime where
  sizeofWchar : Nat
  narrow : Char → Bool

/-- The array `bom` of `OnExport` (line 380). -/
def bom : List Nat := [0xEF, 0xBB, 0xBF]

/-- The wide characters handed over by
`csv.write(reinterpret_cast<wchar_t*>(bom), sizeof(bom) / sizeof(wchar_t))`:
the first `3 / sizeof(wchar_t)` units of the array, each read as a
little-endian `wchar_t`. -/
def bomUnits (rt : WideRuntime) : List Char :=
  (List.range (bom.length / rt.sizeofWchar)).map (fun k =>
    Char.ofNat (((List.range rt.sizeofWchar).map
      (fun b => bom.getD (k * rt.sizeofWchar + b) 0 * 256 ^ b)).sum))

/-- The state of the output stream `csv`: the characters it has accepted and
whether it is in its failure state. -/
structure WOStream where
  text : String
  failed : Bool
  deriving DecidableEq, Repr

/-- One insertion (`csv << s` or `csv.write`): a stream in its failure state
ignores it; a string with a character the locale cannot convert puts the
stream in its failure state; otherwise the characters are accepted. -/
def WOStream.put (rt : WideRuntime) (csv : WOStream) (s : String) : WOStream :=
  if csv.failed then csv
  else if s.data.all rt.narrow then { csv with text := csv.text ++ s }
  else { csv with failed := true }

/-- The insertion statement of the export loop body (lines 386-391). -/
def writeEntry (rt : WideRuntime) (csv : WOStream) (entry : BamDamEntry) : WOStream :=
  [ "\"", entry.timestamp, "\",\"",
    entry.sid, "\",\"",
    entry.username, "\",\"",
    entry.executablePath, "\",\"",
    entry.source, "\",\"",
    entry.notes, "\"\n" ].foldl (WOStream.put rt) csv

/-- The stream `csv` after the insertions of `OnExport` (lines 379-392): marker,
header line, one line per entry. -/
def exportStream (rt : WideRuntime) (entries : List BamDamEntry) : WOStream :=
  let csv : WOStream := { text := "", failed := false }
  let csv := csv.put rt (String.mk (bomUnits rt))
  let csv := csv.put rt "Timestamp,SID,Username,CheminExec,Source,Notes\n"
  entries.foldl (writeEntry rt) csv

/-- What a call of `OnExport` leaves behind: no file written (empty store,
dialog cancelled, file not created), a file holding `text`, or a stream that
failed on a character it could not convert, in which case the file does not
hold the text (what it holds depends on the buffering of the runtime). -/
inductive ExportOutcome where
  | notWritten
  | written (text : String)
  | conversionError
  deriving DecidableEq, Repr

/-- The method `OnExport` (lines 354-399): `saveDialog` is the result of
`GetSaveFileNameW`, `isOpen` that of `csv.is_open()`. -/
def OnExport (rt : WideRuntime) (entries : List BamDamEntry) (saveDialog isOpen : Bool) :
    ExportOutcome :=
  if entries.isEmpty then .notWritten
  else if saveDialog then
    if !isOpen then .notWritten
    else
      let csv := exportStream rt entries
      if csv.failed then .conversionError else .written csv.text
  else .notWritten

/-! ## A concrete machine used to exercise the definitions -/

/-- A SID subkey with a housekeeping value, a failing enumeration slot, a
well-formed value, a short payload and a payload of the wrong type. -/
def demoKey : KeyNode :=
  { subkeys := []
    values :=
      [ .success ⟨"Version", 4, [1, 0, 0, 0]⟩,
        .failure 5,
        .success ⟨"C:\\Temp\\x.exe", REG_BINARY, [0xD4, 0xC3, 0xB2, 0xA1, 0xE2, 0xF3, 0xD5, 0x01]⟩,
        .success ⟨"C:\\Windows\\y.exe", REG_BINARY, [1, 2, 3]⟩,
        .success ⟨"C:\\Users\\u\\Downloads\\z.exe", 1, [1, 2, 3, 4, 5, 6, 7, 8, 9]⟩ ] }

/-- A machine with one SID under `bam` and no `dam` namespace. -/
def demoOS : Win32 :=
  { RegOpenKeyExW := fun path =>
      if path = basePath "bam" then some { subkeys := [.failure 5, .success "S-1-5-18"], values := [] }
      else if path = subkeyPath "bam" "S-1-5-18" then some demoKey
      else none
    ConvertStringSidToSidW := fun sid => if sid = "S-1-5-18" then some [1, 1, 0, 0, 0, 0, 0, 5, 18, 0, 0, 0] else none
    LookupAccountSidW := fun _ => some ("SYSTEM", "NT AUTHORITY")
    FileTimeToSystemTime := fun ft =>
      if ft.dwHighDateTime < 2 ^ 31 then some ⟨2020, 3, 7, 1, 2, 3, 4⟩ else none }

/-- A machine where the same SID has a subkey under both `bam` and `dam`. -/
def dualOS : Win32 :=
  { RegOpenKeyExW := fun path =>
      if path = basePath "bam" then some { subkeys := [.success "S-1-5-18"], values := [] }
      else if path = basePath "dam" then some { subkeys := [.success "S-1-5-18"], values := [] }
      else if path = subkeyPath "bam" "S-1-5-18" then
        some { subkeys := [],
               values := [.success ⟨"C:\\Temp\\x.exe", REG_BINARY,
                 [0xD4, 0xC3, 0xB2, 0xA1, 0xE2, 0xF3, 0xD5, 0x01]⟩] }
      else if path = subkeyPath "dam" "S-1-5-18" then
        some { subkeys := [],
               values := [.success ⟨"C:\\Windows\\y.exe", REG_BINARY,
                 [0xD4, 0xC3, 0xB2, 0xA1, 0xE2, 0xF3, 0xD5, 0x01]⟩] }
      else none
    ConvertStringSidToSidW := fun sid => if sid = "S-1-5-18" then some [1, 1, 0, 0, 0, 0, 0, 5, 18, 0, 0, 0] else none
    LookupAccountSidW := fun _ => some ("SYSTEM", "NT AUTHORITY")
    FileTimeToSystemTime := fun ft =>
      if ft.dwHighDateTime < 2 ^ 31 then some ⟨2020, 3, 7, 1, 2, 3, 4⟩ else none }

/-- The runtime of the GNU C++ library in the classic locale: `wchar_t` has
four bytes and only the characters below 128 are converted. -/
def gnuClassic : WideRuntime :=
  { sizeofWchar := 4
    narrow := fun c => decide (c.toNat < 128) }

/-- A record with a decoded timestamp. -/
def recOld : BamDamEntry :=
  ⟨"07/03/2020 01:02:03.004", "S-1-5-18", "NT AUTHORITY\\SYSTEM", "C:\\Temp\\x.exe", "bam",
    "Emplacement suspect", 132279918778303444⟩

/-- A record with a later timestamp, of another identity. -/
def recNew : BamDamEntry :=
  ⟨"08/03/2020 01:02:03.004", "S-1-5-21-1-2-3-1001", "PC\\alice", "C:\\Windows\\y.exe", "dam",
    "", 132280782778303444⟩

/-- A record without a timestamp. -/
def recZero : BamDamEntry :=
  ⟨"Données invalides", "S-1-5-18", "NT AUTHORITY\\SYSTEM", "C:\\Windows\\y.exe", "bam", "", 0⟩

/-- A record with the same raw timestamp as `recOld` and another path. -/
def recTie : BamDamEntry :=
  ⟨"07/03/2020 01:02:03.004", "S-1-5-18", "NT AUTHORITY\\SYSTEM", "C:\\Windows\\w.exe", "bam",
    "", 132279918778303444⟩

/-- The little-endian unsigned 64-bit integer formed by the first eight bytes
of a payload, as the specification words it: the sum of `P[i] * 2^(8 i)`. -/
def little_endian_u64 (P : List Byte) : Nat :=
  ((List.range 8).map (fun i => (P.getD i 0).val * 2 ^ (8 * i))).sum

/-- A field wrapped in double quotes, with no escaping. -/
def quoteField (f : String) : String := "\"" ++ f ++ "\""

/-- The data row of the export format for one record: its six fields in the
order timestamp, sid, username, executablePath, source, notes, each quoted,
separated by commas. -/
def csvRow (e : BamDamEntry) : String :=
  ",".intercalate
    ([e.timestamp, e.sid, e.username, e.executablePath, e.source, e.notes].map quoteField)

/-- The header row of the export format. -/
def csvHeader : String := "Timestamp,SID,Username,CheminExec,Source,Notes"

/-- The rows of the export format for a store: header, then one per record in
store order. -/
def csvRows (entries : List BamDamEntry) : List String :=
  csvHeader :: entries.map csvRow

/-- The SID subkeys of `service` that a parse pass opens, in enumeration order:
none when the base key of the service does not open, otherwise the
successfully enumerated subkey names whose own key opens. -/
def openedSids (os : Win32) (service : String) : List String :=
  match os.RegOpenKeyExW (basePath service) with
  | none => []
  | some keyBase =>
    keyBase.subkeys.filterMap (fun r =>
      match r with
      | .failure _ => none
      | .success sid =>
        if (os.RegOpenKeyExW (subkeyPath service sid)).isSome then some sid else none)

/-- The effect of `std::__unguarded_linear_insert` on the part of the range
before the inserted value, held in reverse (nearest element first): the value
passes the elements it compares before and stops at the first other one. -/
def insRev {α : Type} (comp : α → α → Bool) (val : α) : List α → List α
  | [] => [val]
  | x :: r => if comp val x then x :: insRev comp val r else val :: x :: r

/-- The effect of one step of `std::__unguarded_insertion_sort` on the part of
the range before the inserted value. -/
def insertUnguarded {α : Type} (comp : α → α → Bool) (val : α) (pre : List α) : List α :=
  (insRev comp val pre.reverse).reverse

/-- The effect of one step of `std::__insertion_sort` on the part of the range
before the inserted value: to the front when the value compares before the
first element, a linear insert otherwise. -/
def insertSorted {α : Type} (comp : α → α → Bool) (val : α) : List α → List α
  | [] => [val]
  | x0 :: pre => if comp val x0 then val :: x0 :: pre else insertUnguarded comp val (x0 :: pre)

/-- A list of rows as text, each row terminated by a newline. -/
def rowsText : List String → String
  | [] => ""
  | r :: rows => r ++ "\n" ++ rowsText rows

end BamDamForensics

namespace BamDamForensics

/-! ## Helper lemmas: the value loop -/

theorem readU64LE_eq_little_endian_u64 (P : List Byte) (hP : 8 ≤ P.length) :
    readU64LE P = little_endian_u64 P := by
  match P, hP with
  | b0 :: b1 :: b2 :: b3 :: b4 :: b5 :: b6 :: b7 :: rest, _ =>
    simp [readU64LE, little_endian_u64, List.range, List.range.loop]
    omega

theorem readU64LE_lt (P : List Byte) : readU64LE P < 2 ^ 64 := by
  unfold readU64LE
  have key : ∀ (l : List Byte), (l.foldr (fun b acc => b.val + 256 * acc) 0) < 256 ^ l.length := by
    intro l
    induction l with
    | nil => simp
    | cons b t ih =>
      simp only [List.foldr_cons, List.length_cons, pow_succ]
      have := b.isLt
      omega
  have h1 := key (P.take 8)
  have h2 : (P.take 8).length ≤ 8 := by simp
  calc _ < 256 ^ (P.take 8).length := h1
    _ ≤ 256 ^ 8 := Nat.pow_le_pow_right (by norm_num) h2
    _ = 2 ^ 64 := by norm_num

theorem enumValues_append (os : Win32) (service sid username : String)
    (l₁ l₂ : List (EnumResult RegValue)) (acc : List BamDamEntry × Nat) :
    enumValues os service sid username (l₁ ++ l₂) acc
      = enumValues os service sid username l₂ (enumValues os service sid username l₁ acc) := by
  induction l₁ generalizing acc with
  | nil => rfl
  | cons r rest ih =>
    cases r with
    | failure c => simpa [enumValues] using ih acc
    | success v =>
      by_cases hv : v.name = "Version"
      · simpa [enumValues, hv] using ih acc
      · simpa [enumValues, hv] using ih _

theorem enumValues_fst (os : Win32) (service sid username : String)
    (l : List (EnumResult RegValue)) (acc : List BamDamEntry × Nat) :
    (enumValues os service sid username l acc).1
      = acc.1 ++ (enumValues os service sid username l ([], 0)).1 := by
  induction l generalizing acc with
  | nil => simp [enumValues]
  | cons r rest ih =>
    cases r with
    | failure c => simpa [enumValues] using ih acc
    | success v =>
      by_cases hv : v.name = "Version"
      · simpa [enumValues, hv] using ih acc
      · simp only [enumValues, hv, if_false]
        rw [ih, ih ([] ++ _, _)]
        simp

/-! ## C1 -/

/-- C1. Record building round trip: when the key of namespace `N` (one of
`bam`, `dam`) and SID `S` opens and its value enumeration yields, at any
position, a value named `X` other than `"Version"` with a `REG_BINARY`
payload `P` of at least 8 bytes, `ParseBamDamKey` appends for it, in
enumeration order, one record `r` with `source = N`, `sid = S`,
`executablePath = X`, `fileTimeRaw` the little-endian unsigned 64-bit integer
of the first 8 bytes of `P`, and `timestamp` the codec's decode of that
integer. -/
theorem record_round_trip (os : Win32) (N S X : String) (P : List Byte) (s : Store)
    (key : KeyNode) (pre post : List (EnumResult RegValue))
    (_hN : N ∈ services)
    (hopen : os.RegOpenKeyExW (subkeyPath N S) = some key)
    (hvals : key.values = pre ++ EnumResult.success ⟨X, REG_BINARY, P⟩ :: post)
    (hX : X ≠ "Version") (hP : 8 ≤ P.length) :
    ∃ r : BamDamEntry,
      (ParseBamDamKey os N S s).1.entries
        = (enumValues os N S (SidToUsername os S) pre (s.entries, 0)).1 ++ r ::
            (enumValues os N S (SidToUsername os S) post ([], 0)).1
      ∧ r.source = N ∧ r.sid = S ∧ r.executablePath = X
      ∧ r.fileTimeRaw = little_endian_u64 P
      ∧ r.timestamp = FileTimeToStringPrecise os (little_endian_u64 P) := by
  refine ⟨buildEntry os N S (SidToUsername os S) ⟨X, REG_BINARY, P⟩, ?_, rfl, rfl, rfl, ?_, ?_⟩
  · simp only [ParseBamDamKey, hopen, hvals, enumValues_append]
    simp only [enumValues, hX, if_false]
    rw [enumValues_fst]
    simp
  · simp [buildEntry, hP, readU64LE_eq_little_endian_u64]
  · simp [buildEntry, hP, readU64LE_eq_little_endian_u64]

/-- Witness of C1 on `demoOS`: the value `C:\\Temp\\x.exe` under `bam`. -/
theorem record_round_trip_witness :
    ∃ r : BamDamEntry,
      (ParseBamDamKey demoOS "bam" "S-1-5-18" ⟨[], []⟩).1.entries
        = (enumValues demoOS "bam" "S-1-5-18" (SidToUsername demoOS "S-1-5-18")
            [.success ⟨"Version", 4, [1, 0, 0, 0]⟩, .failure 5] ([], 0)).1 ++ r ::
          (enumValues demoOS "bam" "S-1-5-18" (SidToUsername demoOS "S-1-5-18")
            [.success ⟨"C:\\Windows\\y.exe", REG_BINARY, [1, 2, 3]⟩,
             .success ⟨"C:\\Users\\u\\Downloads\\z.exe", 1, [1, 2, 3, 4, 5, 6, 7, 8, 9]⟩] ([], 0)).1
      ∧ r.source = "bam" ∧ r.sid = "S-1-5-18" ∧ r.executablePath = "C:\\Temp\\x.exe"
      ∧ r.fileTimeRaw = little_endian_u64 [0xD4, 0xC3, 0xB2, 0xA1, 0xE2, 0xF3, 0xD5, 0x01]
      ∧ r.timestamp
          = FileTimeToStringPrecise demoOS
              (little_endian_u64 [0xD4, 0xC3, 0xB2, 0xA1, 0xE2, 0xF3, 0xD5, 0x01]) :=
  record_round_trip demoOS "bam" "S-1-5-18" "C:\\Temp\\x.exe"
    [0xD4, 0xC3, 0xB2, 0xA1, 0xE2, 0xF3, 0xD5, 0x01] ⟨[], []⟩ demoKey
    [.success ⟨"Version", 4, [1, 0, 0, 0]⟩, .failure 5]
    [.success ⟨"C:\\Windows\\y.exe", REG_BINARY, [1, 2, 3]⟩,
     .success ⟨"C:\\Users\\u\\Downloads\\z.exe", 1, [1, 2, 3, 4, 5, 6, 7, 8, 9]⟩]
    (by decide) (by decide) rfl (by decide) (by decide)

/-! ## C2 -/

/-- C2, as stated, fails on the code: on `demoOS` the key of `bam` / `S-1-5-18`
opens, its enumeration yields the value `C:\\Windows\\y.exe` with a 3-byte
payload, and the record `ParseBamDamKey` appends for it carries the timestamp
`"Données invalides"`, which is not the string `"Invalid data"`. -/
theorem malformed_payload_counterexample :
    demoOS.RegOpenKeyExW (subkeyPath "bam" "S-1-5-18") = some demoKey
    ∧ EnumResult.success ⟨"C:\\Windows\\y.exe", REG_BINARY, [1, 2, 3]⟩ ∈ demoKey.values
    ∧ (ParseBamDamKey demoOS "bam" "S-1-5-18" ⟨[], []⟩).1.entries.map
          (fun r => (r.executablePath, r.fileTimeRaw, r.timestamp))
        = [("C:\\Temp\\x.exe", 132279918778303444, "07/03/2020 01:02:03.004"),
           ("C:\\Windows\\y.exe", 0, "Données invalides"),
           ("C:\\Users\\u\\Downloads\\z.exe", 0, "Données invalides")]
    ∧ "Données invalides" ≠ "Invalid data" := by
  decide

/-- C2 (amended). Malformed payloads are degraded, not dropped: when the key of
`N` / `S` opens and its value enumeration yields, at any position, a value
named `X` other than `"Version"` whose payload is shorter than 8 bytes or
whose type is not `REG_BINARY`, `ParseBamDamKey` appends exactly one record
for it, in enumeration order, and that record has `fileTimeRaw = 0` and
`timestamp = "Données invalides"`. -/
theorem malformed_payload_degraded (os : Win32) (N S X : String) (ty : Nat) (P : List Byte)
    (s : Store) (key : KeyNode) (pre post : List (EnumResult RegValue))
    (hopen : os.RegOpenKeyExW (subkeyPath N S) = some key)
    (hvals : key.values = pre ++ EnumResult.success ⟨X, ty, P⟩ :: post)
    (hX : X ≠ "Version") (hP : P.length < 8 ∨ ty ≠ REG_BINARY) :
    ∃ r : BamDamEntry,
      (ParseBamDamKey os N S s).1.entries
        = (enumValues os N S (SidToUsername os S) pre (s.entries, 0)).1 ++ r ::
            (enumValues os N S (SidToUsername os S) post ([], 0)).1
      ∧ r.executablePath = X ∧ r.fileTimeRaw = 0 ∧ r.timestamp = "Données invalides" := by
  have hcond : ¬ (P.length ≥ 8 ∧ ty = REG_BINARY) := by
    rintro ⟨h1, h2⟩
    rcases hP with h | h
    · omega
    · exact h h2
  refine ⟨buildEntry os N S (SidToUsername os S) ⟨X, ty, P⟩, ?_, rfl, ?_, ?_⟩
  · simp only [ParseBamDamKey, hopen, hvals, enumValues_append]
    simp only [enumValues, hX, if_false]
    rw [enumValues_fst]
    simp
  · simp only [buildEntry, hcond, if_false]
  · simp only [buildEntry, hcond, if_false]

/-- Witness of the amended C2 on `demoOS`: the 3-byte value `C:\\Windows\\y.exe`. -/
theorem malformed_payload_degraded_witness :
    ∃ r : BamDamEntry,
      (ParseBamDamKey demoOS "bam" "S-1-5-18" ⟨[], []⟩).1.entries
        = (enumValues demoOS "bam" "S-1-5-18" (SidToUsername demoOS "S-1-5-18")
            [.success ⟨"Version", 4, [1, 0, 0, 0]⟩, .failure 5,
             .success ⟨"C:\\Temp\\x.exe", REG_BINARY,
               [0xD4, 0xC3, 0xB2, 0xA1, 0xE2, 0xF3, 0xD5, 0x01]⟩] ([], 0)).1 ++ r ::
          (enumValues demoOS "bam" "S-1-5-18" (SidToUsername demoOS "S-1-5-18")
            [.success ⟨"C:\\Users\\u\\Downloads\\z.exe", 1, [1, 2, 3, 4, 5, 6, 7, 8, 9]⟩]
            ([], 0)).1
      ∧ r.executablePath = "C:\\Windows\\y.exe" ∧ r.fileTimeRaw = 0
      ∧ r.timestamp = "Données invalides" :=
  malformed_payload_degraded demoOS "bam" "S-1-5-18" "C:\\Windows\\y.exe" REG_BINARY [1, 2, 3]
    ⟨[], []⟩ demoKey
    [.success ⟨"Version", 4, [1, 0, 0, 0]⟩, .failure 5,
     .success ⟨"C:\\Temp\\x.exe", REG_BINARY, [0xD4, 0xC3, 0xB2, 0xA1, 0xE2, 0xF3, 0xD5, 0x01]⟩]
    [.success ⟨"C:\\Users\\u\\Downloads\\z.exe", 1, [1, 2, 3, 4, 5, 6, 7, 8, 9]⟩]
    (by decide) rfl (by decide) (Or.inl (by decide))

/-! ## Helper lemmas: which records a parse pass holds -/

theorem mem_enumValues (os : Win32) (service sid username : String)
    (l : List (EnumResult RegValue)) (acc : List BamDamEntry × Nat) (e : BamDamEntry) :
    e ∈ (enumValues os service sid username l acc).1 ↔
      e ∈ acc.1 ∨ ∃ v, EnumResult.success v ∈ l ∧ v.name ≠ "Version"
        ∧ e = buildEntry os service sid username v := by
  induction l generalizing acc with
  | nil => simp [enumValues]
  | cons r rest ih =>
    cases r with
    | failure c => simp [enumValues, ih]
    | success v =>
      by_cases hv : v.name = "Version"
      · simp only [enumValues, hv, if_true, ih, List.mem_cons, EnumResult.success.injEq]
        constructor
        · rintro (h | ⟨w, hw, hn, he⟩)
          · exact Or.inl h
          · exact Or.inr ⟨w, Or.inr hw, hn, he⟩
        · rintro (h | ⟨w, hw | hw, hn, he⟩)
          · exact Or.inl h
          · exact absurd (hw ▸ hv) hn
          · exact Or.inr ⟨w, hw, hn, he⟩
      · simp only [enumValues, hv, if_false, ih, List.mem_cons, EnumResult.success.injEq,
          List.mem_append, List.not_mem_nil, or_false]
        constructor
        · rintro ((h | h) | ⟨w, hw, hn, he⟩)
          · exact Or.inl h
          · exact Or.inr ⟨v, Or.inl rfl, hv, h⟩
          · exact Or.inr ⟨w, Or.inr hw, hn, he⟩
        · rintro (h | ⟨w, hw | hw, hn, he⟩)
          · exact Or.inl (Or.inl h)
          · exact Or.inl (Or.inr (hw ▸ he))
          · exact Or.inr ⟨w, hw, hn, he⟩

theorem mem_ParseBamDamKey (os : Win32) (service sid : String) (s : Store) (e : BamDamEntry) :
    e ∈ (ParseBamDamKey os service sid s).1.entries ↔
      e ∈ s.entries ∨ ∃ key v, os.RegOpenKeyExW (subkeyPath service sid) = some key
        ∧ EnumResult.success v ∈ key.values ∧ v.name ≠ "Version"
        ∧ e = buildEntry os service sid (SidToUsername os sid) v := by
  unfold ParseBamDamKey
  cases hopen : os.RegOpenKeyExW (subkeyPath service sid) with
  | none => simp
  | some key => simp [mem_enumValues]

theorem mem_enumSids (os : Win32) (service : String) (l : List (EnumResult String))
    (s : Store) (e : BamDamEntry) :
    e ∈ (enumSids os service l s).entries ↔
      e ∈ s.entries ∨ ∃ sid, EnumResult.success sid ∈ l ∧
        ∃ key v, os.RegOpenKeyExW (subkeyPath service sid) = some key
          ∧ EnumResult.success v ∈ key.values ∧ v.name ≠ "Version"
          ∧ e = buildEntry os service sid (SidToUsername os sid) v := by
  induction l generalizing s with
  | nil => simp [enumSids]
  | cons r rest ih =>
    cases r with
    | failure c => simp [enumSids, ih]
    | success sid =>
      simp only [enumSids, ih, mem_ParseBamDamKey, List.mem_cons, EnumResult.success.injEq]
      constructor
      · rintro ((h | ⟨key, v, h⟩) | ⟨sid2, hs, h⟩)
        · exact Or.inl h
        · exact Or.inr ⟨sid, Or.inl rfl, key, v, h⟩
        · exact Or.inr ⟨sid2, Or.inr hs, h⟩
      · rintro (h | ⟨sid2, hs | hs, h⟩)
        · exact Or.inl (Or.inl h)
        · subst hs
          exact Or.inl (Or.inr h)
        · exact Or.inr ⟨sid2, hs, h⟩

theorem mem_parseService (os : Win32) (s : Store) (service : String) (e : BamDamEntry) :
    e ∈ (parseService os s service).entries ↔
      e ∈ s.entries ∨ ∃ keyBase sid, os.RegOpenKeyExW (basePath service) = some keyBase
        ∧ EnumResult.success sid ∈ keyBase.subkeys ∧
        ∃ key v, os.RegOpenKeyExW (subkeyPath service sid) = some key
          ∧ EnumResult.success v ∈ key.values ∧ v.name ≠ "Version"
          ∧ e = buildEntry os service sid (SidToUsername os sid) v := by
  unfold parseService
  cases hopen : os.RegOpenKeyExW (basePath service) with
  | none => simp
  | some keyBase => simp [mem_enumSids]

/-- The records of the store after `ParseBamDam` are exactly the entries built
from the values, other than `"Version"`, that the walk enumerates. -/
theorem mem_ParseBamDam (os : Win32) (s : Store) (e : BamDamEntry) :
    e ∈ (ParseBamDam os s).1.entries ↔
      ∃ service ∈ services, ∃ keyBase sid,
        os.RegOpenKeyExW (basePath service) = some keyBase
        ∧ EnumResult.success sid ∈ keyBase.subkeys ∧
        ∃ key v, os.RegOpenKeyExW (subkeyPath service sid) = some key
          ∧ EnumResult.success v ∈ key.values ∧ v.name ≠ "Version"
          ∧ e = buildEntry os service sid (SidToUsername os sid) v := by
  simp only [ParseBamDam, services, List.foldl_cons, List.foldl_nil, mem_parseService,
    List.mem_cons, List.mem_singleton, List.not_mem_nil, false_or, or_false]
  constructor
  · rintro (h | h)
    · exact ⟨"bam", Or.inl rfl, h⟩
    · exact ⟨"dam", Or.inr rfl, h⟩
  · rintro ⟨service, rfl | rfl, h⟩
    · exact Or.inl h
    · exact Or.inr h

/-! ## C3 -/

/-- C3. For every registry content, no record of the store after `ParseBamDam`
has `executablePath = "Version"`, and every value with another name that the
walk enumerates successfully (its namespace opens, its SID is enumerated, its
SID key opens, the value is enumerated) yields a record carrying that name,
SID and namespace. -/
theorem version_value_excluded (os : Win32) (s : Store) :
    (∀ e ∈ (ParseBamDam os s).1.entries, e.executablePath ≠ "Version")
    ∧ ∀ (service : String) (keyBase : KeyNode) (sid : String) (key : KeyNode) (v : RegValue),
        service ∈ services →
        os.RegOpenKeyExW (basePath service) = some keyBase →
        EnumResult.success sid ∈ keyBase.subkeys →
        os.RegOpenKeyExW (subkeyPath service sid) = some key →
        EnumResult.success v ∈ key.values →
        v.name ≠ "Version" →
        ∃ e ∈ (ParseBamDam os s).1.entries,
          e.executablePath = v.name ∧ e.sid = sid ∧ e.source = service := by
  constructor
  · intro e he
    obtain ⟨service, _, keyBase, sid, _, _, key, v, _, _, hv, rfl⟩ := (mem_ParseBamDam os s e).1 he
    exact hv
  · intro service keyBase sid key v hsvc hbase hsid hkey hval hv
    exact ⟨buildEntry os service sid (SidToUsername os sid) v,
      (mem_ParseBamDam os s _).2 ⟨service, hsvc, keyBase, sid, hbase, hsid, key, v, hkey, hval, hv, rfl⟩,
      rfl, rfl, rfl⟩

/-- Witness of C3 on `demoOS`: no `"Version"` record, and the enumerated value
`C:\\Temp\\x.exe` has its record. -/
theorem version_value_excluded_witness :
    (∀ e ∈ (ParseBamDam demoOS ⟨[], []⟩).1.entries, e.executablePath ≠ "Version")
    ∧ ∃ e ∈ (ParseBamDam demoOS ⟨[], []⟩).1.entries,
        e.executablePath = "C:\\Temp\\x.exe" ∧ e.sid = "S-1-5-18" ∧ e.source = "bam" :=
  ⟨(version_value_excluded demoOS ⟨[], []⟩).1,
   (version_value_excluded demoOS ⟨[], []⟩).2 "bam"
      { subkeys := [.failure 5, .success "S-1-5-18"], values := [] } "S-1-5-18" demoKey
      ⟨"C:\\Temp\\x.exe", REG_BINARY, [0xD4, 0xC3, 0xB2, 0xA1, 0xE2, 0xF3, 0xD5, 0x01]⟩
      (by decide) (by decide) (by decide) (by decide) (by decide) (by decide)⟩

/-! ## C4 -/

theorem formatSystemTime_length (st : SYSTEMTIME) : 6 ≤ (formatSystemTime st).data.length := by
  simp only [formatSystemTime, List.length_append, List.length_cons]
  omega

theorem formatSystemTime_ne_na (st : SYSTEMTIME) : formatSystemTime st ≠ "N/A" := by
  intro h
  have h1 := formatSystemTime_length st
  rw [h] at h1
  exact absurd h1 (by decide)

/-- C4. The timestamp codec `FileTimeToStringPrecise` is a total function of
its input (for every behaviour of the calendar conversion) and returns
`"N/A"` if and only if the input is `0`; for any other input the result is
the formatted date/time when the conversion succeeds and the marker
`"Invalide"` when it fails, both different from `"N/A"`. -/
theorem codec_na_iff_zero (os : Win32) (raw : Nat) :
    FileTimeToStringPrecise os 0 = "N/A"
    ∧ (FileTimeToStringPrecise os raw = "N/A" ↔ raw = 0)
    ∧ (raw = 0 ∨ FileTimeToStringPrecise os raw = "Invalide"
        ∨ ∃ st, FileTimeToStringPrecise os raw = formatSystemTime st) := by
  refine ⟨by simp [FileTimeToStringPrecise], ?_, ?_⟩
  · constructor
    · intro h
      by_contra hne
      simp only [FileTimeToStringPrecise, hne, if_false] at h
      split at h
      · exact formatSystemTime_ne_na _ h
      · exact absurd h (by decide)
    · rintro rfl
      simp [FileTimeToStringPrecise]
  · by_cases hz : raw = 0
    · exact Or.inl hz
    · right
      simp only [FileTimeToStringPrecise, hz, if_false]
      split
      · exact Or.inr ⟨_, rfl⟩
      · exact Or.inl rfl

/-! ## Helper lemmas: the library sort rearranges -/

theorem cons_set_perm {α : Type} (t : List α) (c : Nat) (x v : α) (h : t[c]? = some x) :
    (x :: t.set c v).Perm (v :: t) := by
  induction t generalizing c with
  | nil => simp at h
  | cons y t ih =>
    cases c with
    | zero =>
      simp only [List.getElem?_cons_zero, Option.some.injEq] at h
      subst h
      exact List.Perm.swap _ _ _
    | succ c =>
      simp only [List.getElem?_cons_succ] at h
      simp only [List.set_cons_succ]
      exact (List.Perm.swap _ _ _).trans (((ih c h).cons y).trans (List.Perm.swap _ _ _))

theorem cons_set_swap_perm {α : Type} (t : List α) (i : Nat) (u w : α) (h : i < t.length) :
    (u :: t.set i w).Perm (w :: t.set i u) := by
  induction t generalizing i with
  | nil => simp at h
  | cons y t ih =>
    cases i with
    | zero => exact List.Perm.swap _ _ _
    | succ i =>
      simp only [List.length_cons, Nat.add_lt_add_iff_right] at h
      simp only [List.set_cons_succ]
      exact (List.Perm.swap _ _ _).trans (((ih i h).cons y).trans (List.Perm.swap _ _ _))

/-- Moving the element at `c` into the hole and the value to `c` rearranges the
range whose hole holds the value. -/
theorem set_set_perm {α : Type} (a : List α) (hole c : Nat) (x v : α)
    (hc : a[c]? = some x) (hh : hole < a.length) (hne : c ≠ hole) :
    ((a.set hole x).set c v).Perm (a.set hole v) := by
  induction a generalizing hole c with
  | nil => simp at hh
  | cons y t ih =>
    cases hole with
    | zero =>
      cases c with
      | zero => exact absurd rfl hne
      | succ c =>
        simp only [List.getElem?_cons_succ] at hc
        simp only [List.set_cons_zero, List.set_cons_succ]
        exact cons_set_perm t c x v hc
    | succ hole =>
      simp only [List.length_cons, Nat.add_lt_add_iff_right] at hh
      cases c with
      | zero =>
        simp only [List.getElem?_cons_zero, Option.some.injEq] at hc
        subst hc
        simp only [List.set_cons_zero, List.set_cons_succ]
        exact cons_set_swap_perm t hole v y hh
      | succ c =>
        simp only [List.getElem?_cons_succ] at hc
        simp only [List.set_cons_succ]
        exact (ih hole c hc hh (fun h => hne (by rw [h]))).cons y

theorem set_self_of_getElem? {α : Type} (a : List α) (i : Nat) (x : α) (h : a[i]? = some x) :
    a.set i x = a := by
  induction a generalizing i with
  | nil => rfl
  | cons y t ih =>
    cases i with
    | zero =>
      simp only [List.getElem?_cons_zero, Option.some.injEq] at h
      simp [h]
    | succ i =>
      simp only [List.getElem?_cons_succ] at h
      simp [ih i h]

theorem lt_length_of_getElem? {α : Type} (a : List α) (i : Nat) (x : α) (h : a[i]? = some x) :
    i < a.length := by
  by_contra hn
  rw [List.getElem?_eq_none (Nat.le_of_not_lt hn)] at h
  exact absurd h (by simp)

theorem iterSwap_perm {α : Type} (a : List α) (i j : Nat) : (iterSwap a i j).Perm a := by
  unfold iterSwap
  split
  · next x y hx hy =>
    by_cases hij : j = i
    · subst hij
      rw [hx] at hy
      cases hy
      rw [set_self_of_getElem? a j x hx, set_self_of_getElem? a j x hx]
    · have h1 := set_set_perm a i j y x hy (lt_length_of_getElem? a i x hx) hij
      rwa [set_self_of_getElem? a i x hx] at h1
  · exact List.Perm.refl _

theorem moveMedianToFirst_perm {α : Type} (comp : α → α → Bool) (a : List α)
    (result ia ib ic : Nat) : (moveMedianToFirst comp a result ia ib ic).Perm a := by
  unfold moveMedianToFirst
  split_ifs <;> exact iterSwap_perm _ _ _

theorem unguardedPartition_perm {α : Type} (comp : α → α → Bool) (pivot fuel : Nat)
    (a : List α) (first last : Nat) :
    (unguardedPartition comp pivot fuel a first last).1.Perm a := by
  induction fuel generalizing a first last with
  | zero => exact List.Perm.refl _
  | succ fuel ih =>
    simp only [unguardedPartition]
    split_ifs
    · exact (ih _ _ _).trans (iterSwap_perm _ _ _)
    · exact List.Perm.refl _

theorem unguardedPartitionPivot_perm {α : Type} (comp : α → α → Bool) (a : List α) :
    (unguardedPartitionPivot comp a).1.Perm a := by
  unfold unguardedPartitionPivot
  exact (unguardedPartition_perm _ _ _ _ _ _).trans (moveMedianToFirst_perm _ _ _ _ _ _)

theorem pushHeap_perm {α : Type} (comp : α → α → Bool) (value : α) (topIndex fuel : Nat)
    (holeIndex : Nat) (a : List α) (hh : holeIndex < a.length) :
    (pushHeap comp value topIndex fuel holeIndex a).Perm (a.set holeIndex value) := by
  induction fuel generalizing holeIndex a with
  | zero => exact List.Perm.refl _
  | succ fuel ih =>
    simp only [pushHeap]
    split_ifs with htop
    · split
      · next p hp =>
        split_ifs
        · have hlt : (holeIndex - 1) / 2 < holeIndex := by omega
          have hpl : (holeIndex - 1) / 2 < (a.set holeIndex p).length := by
            simp only [List.length_set]; omega
          refine (ih _ _ hpl).trans ?_
          exact set_set_perm a holeIndex _ p value hp hh (by omega)
        · exact List.Perm.refl _
      · exact List.Perm.refl _
    · exact List.Perm.refl _

theorem siftHole_spec {α : Type} (comp : α → α → Bool) (len fuel holeIndex : Nat)
    (a : List α) (value : α) (hh : holeIndex < a.length) :
    (siftHole comp len fuel holeIndex a).2 < (siftHole comp len fuel holeIndex a).1.length
    ∧ ((siftHole comp len fuel holeIndex a).1.set (siftHole comp len fuel holeIndex a).2 value).Perm
        (a.set holeIndex value) := by
  induction fuel generalizing holeIndex a with
  | zero => exact ⟨hh, List.Perm.refl _⟩
  | succ fuel ih =>
    simp only [siftHole]
    by_cases h1 : holeIndex < (len - 1) / 2
    · simp only [h1, if_true]
      have hne : (if compAt comp a (2 * (holeIndex + 1)) (2 * (holeIndex + 1) - 1) = true
          then 2 * (holeIndex + 1) - 1 else 2 * (holeIndex + 1)) ≠ holeIndex := by
        split_ifs <;> omega
      generalize (if compAt comp a (2 * (holeIndex + 1)) (2 * (holeIndex + 1) - 1) = true
          then 2 * (holeIndex + 1) - 1 else 2 * (holeIndex + 1)) = sc at hne
      split
      · next x hx =>
        have hsc := lt_length_of_getElem? _ _ _ hx
        obtain ⟨h2, h3⟩ := ih sc (a.set holeIndex x) (by simpa using hsc)
        exact ⟨h2, h3.trans (set_set_perm a holeIndex sc x value hx hh hne)⟩
      · exact ⟨hh, List.Perm.refl _⟩
    · simp only [h1, if_false]
      exact ⟨hh, List.Perm.refl _⟩

theorem adjustHeap_perm {α : Type} (comp : α → α → Bool) (a : List α) (holeIndex len : Nat)
    (value : α) (hh : holeIndex < a.length) :
    (adjustHeap comp a holeIndex len value).Perm (a.set holeIndex value) := by
  obtain ⟨h1, h2⟩ := siftHole_spec comp len len holeIndex a value hh
  unfold adjustHeap
  simp only
  split_ifs with hc
  · split
    · next x hx =>
      have hk := lt_length_of_getElem? _ _ _ hx
      refine (pushHeap_perm _ _ _ _ _ _ (by simpa using hk)).trans ?_
      exact (set_set_perm _ _ _ x value hx h1 (by omega)).trans h2
    · exact (pushHeap_perm _ _ _ _ _ _ h1).trans h2
  · exact (pushHeap_perm _ _ _ _ _ _ h1).trans h2

theorem popHeap_perm {α : Type} (comp : α → α → Bool) (a : List α) (last : Nat) :
    (popHeap comp a last).Perm a := by
  unfold popHeap
  split
  · next value top hv ht =>
    have hl := lt_length_of_getElem? _ _ _ hv
    have h0 := lt_length_of_getElem? _ _ _ ht
    refine (adjustHeap_perm comp (a.set last top) 0 last value (by simpa using h0)).trans ?_
    by_cases hz : last = 0
    · subst hz
      rw [hv] at ht
      cases ht
      simp only [List.set_set]
      rw [set_self_of_getElem? a 0 value hv]
    · have := set_set_perm a last 0 top value ht hl (fun h => hz h.symm)
      rwa [set_self_of_getElem? a last value hv] at this
  · exact List.Perm.refl _

theorem sortHeap_perm {α : Type} (comp : α → α → Bool) (last : Nat) (a : List α) :
    (sortHeap comp last a).Perm a := by
  induction last using Nat.strong_induction_on generalizing a with
  | _ n ih =>
    match n with
    | 0 => exact List.Perm.refl _
    | 1 => exact List.Perm.refl _
    | m + 2 =>
      simp only [sortHeap]
      exact (ih (m + 1) (by omega) _).trans (popHeap_perm _ _ _)

theorem makeHeapLoop_perm {α : Type} (comp : α → α → Bool) (len parent : Nat) (a : List α) :
    (makeHeapLoop comp len parent a).Perm a := by
  induction parent generalizing a with
  | zero =>
    simp only [makeHeapLoop]
    split
    · next value hv =>
      have := adjustHeap_perm comp a 0 len value (lt_length_of_getElem? _ _ _ hv)
      rwa [set_self_of_getElem? a 0 value hv] at this
    · exact List.Perm.refl _
  | succ parent ih =>
    simp only [makeHeapLoop]
    split
    · next value hv =>
      have := adjustHeap_perm comp a (parent + 1) len value (lt_length_of_getElem? _ _ _ hv)
      rw [set_self_of_getElem? a _ value hv] at this
      exact (ih _).trans this
    · exact List.Perm.refl _

theorem partialSort_perm {α : Type} (comp : α → α → Bool) (a : List α) :
    (partialSort comp a).Perm a := by
  unfold partialSort makeHeap
  refine (sortHeap_perm _ _ _).trans ?_
  split_ifs
  · exact List.Perm.refl _
  · exact makeHeapLoop_perm _ _ _ _

theorem introsortLoop_perm {α : Type} (comp : α → α → Bool) (depth : Nat) (a : List α) :
    (introsortLoop comp depth a).Perm a := by
  induction depth generalizing a with
  | zero =>
    simp only [introsortLoop]
    split_ifs
    · exact partialSort_perm _ _
    · exact List.Perm.refl _
  | succ depth ih =>
    simp only [introsortLoop]
    split_ifs
    · have h := unguardedPartitionPivot_perm comp a
      have h2 := (ih ((unguardedPartitionPivot comp a).1.take (unguardedPartitionPivot comp a).2)).append
        (ih ((unguardedPartitionPivot comp a).1.drop (unguardedPartitionPivot comp a).2))
      rw [List.take_append_drop] at h2
      exact h2.trans h
    · exact List.Perm.refl _

/-! ## Helper lemmas: the loop budgets of the library sort are never used up -/

theorem lgFuel_eq_log2 (fuel n : Nat) (h : n ≤ fuel) : lgFuel fuel n = Nat.log2 n := by
  induction fuel generalizing n with
  | zero =>
    have : n = 0 := by omega
    subst this
    simp [lgFuel, Nat.log2]
  | succ fuel ih =>
    rw [lgFuel, Nat.log2]
    split_ifs with h2
    · rw [ih (n / 2) (by omega)]
    · rfl

/-- The helper `lg` is the floor of the binary logarithm. -/
theorem lg_eq_log2 (n : Nat) : lg n = Nat.log2 n :=
  lgFuel_eq_log2 n n (Nat.le_refl n)

theorem compAt_of_length_le {α : Type} (comp : α → α → Bool) (a : List α) (i j : Nat)
    (h : a.length ≤ i) : compAt comp a i j = false := by
  simp [compAt, List.getElem?_eq_none h]

theorem scanUp_fuel {α : Type} (comp : α → α → Bool) (a : List α) (pivot fuel first : Nat)
    (h : a.length ≤ first + fuel) :
    scanUp comp a pivot (fuel + 1) first = scanUp comp a pivot fuel first := by
  induction fuel generalizing first with
  | zero => simp [scanUp, compAt_of_length_le comp a first pivot (by omega)]
  | succ fuel ih =>
    rw [scanUp, scanUp.eq_def comp a pivot (fuel + 1) first]
    simp only
    split_ifs
    · exact ih (first + 1) (by omega)
    · rfl

theorem scanUp_ge {α : Type} (comp : α → α → Bool) (a : List α) (pivot fuel first : Nat) :
    first ≤ scanUp comp a pivot fuel first := by
  induction fuel generalizing first with
  | zero => simp [scanUp]
  | succ fuel ih =>
    simp only [scanUp]
    split_ifs
    · exact Nat.le_trans (Nat.le_succ first) (ih (first + 1))
    · exact Nat.le_refl _

theorem scanDown_le {α : Type} (comp : α → α → Bool) (a : List α) (pivot last : Nat) :
    scanDown comp a pivot last ≤ last := by
  induction last with
  | zero => simp [scanDown]
  | succ last ih =>
    simp only [scanDown]
    split_ifs
    · exact Nat.le_trans ih (Nat.le_succ last)
    · exact Nat.le_refl _

theorem iterSwap_length {α : Type} (a : List α) (i j : Nat) :
    (iterSwap a i j).length = a.length :=
  (iterSwap_perm a i j).length_eq

/-- The partition loop ends before its budget: one more round changes nothing. -/
theorem unguardedPartition_fuel {α : Type} (comp : α → α → Bool) (pivot fuel : Nat)
    (a : List α) (first last : Nat) (h : last ≤ first + fuel) :
    unguardedPartition comp pivot (fuel + 2) a first last
      = unguardedPartition comp pivot (fuel + 1) a first last := by
  induction fuel generalizing a first last with
  | zero =>
    have h1 := scanUp_ge comp a pivot a.length first
    have h2 := scanDown_le comp a pivot (last - 1)
    have hn : ¬ scanUp comp a pivot a.length first < scanDown comp a pivot (last - 1) := by
      omega
    simp [unguardedPartition, hn]
  | succ fuel ih =>
    rw [unguardedPartition, unguardedPartition.eq_def comp pivot (fuel + 1 + 1) a first last]
    simp only
    split_ifs with hlt
    · have h1 := scanUp_ge comp a pivot a.length first
      have h2 := scanDown_le comp a pivot (last - 1)
      exact ih _ _ _ (by omega)
    · rfl

theorem pushHeap_fuel {α : Type} (comp : α → α → Bool) (value : α) (topIndex fuel : Nat)
    (holeIndex : Nat) (a : List α) (h : holeIndex ≤ fuel) :
    pushHeap comp value topIndex (fuel + 1) holeIndex a
      = pushHeap comp value topIndex fuel holeIndex a := by
  induction fuel generalizing holeIndex a with
  | zero =>
    have : holeIndex = 0 := by omega
    subst this
    simp [pushHeap]
  | succ fuel ih =>
    rw [pushHeap, pushHeap.eq_def comp value topIndex (fuel + 1) holeIndex a]
    simp only
    split_ifs with htop
    · split
      · split_ifs
        · exact ih _ _ (by omega)
        · rfl
      · rfl
    · rfl

theorem siftHole_fuel {α : Type} (comp : α → α → Bool) (len fuel holeIndex : Nat)
    (a : List α) (h : (len - 1) / 2 ≤ holeIndex + fuel) :
    siftHole comp len (fuel + 1) holeIndex a = siftHole comp len fuel holeIndex a := by
  induction fuel generalizing holeIndex a with
  | zero =>
    have hn : ¬ holeIndex < (len - 1) / 2 := by omega
    simp [siftHole, hn]
  | succ fuel ih =>
    rw [siftHole, siftHole.eq_def comp len (fuel + 1) holeIndex a]
    simp only
    by_cases h1 : holeIndex < (len - 1) / 2
    · simp only [h1, if_true]
      have hge : holeIndex + 1 ≤ (if compAt comp a (2 * (holeIndex + 1)) (2 * (holeIndex + 1) - 1)
          = true then 2 * (holeIndex + 1) - 1 else 2 * (holeIndex + 1)) := by
        split_ifs <;> omega
      generalize (if compAt comp a (2 * (holeIndex + 1)) (2 * (holeIndex + 1) - 1) = true
          then 2 * (holeIndex + 1) - 1 else 2 * (holeIndex + 1)) = sc at hge
      split
      · exact ih _ _ (by omega)
      · rfl
    · simp only [h1, if_false]

/-! ## Helper lemmas: the final insertion sort -/

theorem getElem?_append_cons_length {α : Type} (pre : List α) (val : α) (suf : List α) :
    (pre ++ val :: suf)[pre.length]? = some val := by
  induction pre with
  | nil => simp
  | cons x pre ih => simpa using ih

theorem unguardedLinearInsert_eq {α : Type} (comp : α → α → Bool) (val : α)
    (r : List α) (junk : α) (suf : List α) :
    unguardedLinearInsert comp val r.length (r.reverse ++ junk :: suf)
      = (insRev comp val r).reverse ++ suf := by
  induction r generalizing junk suf with
  | nil => simp [unguardedLinearInsert, insRev]
  | cons x r ih =>
    have hx : (((x :: r).reverse) ++ junk :: suf)[r.length]? = some x := by
      have := getElem?_append_cons_length r.reverse x (junk :: suf)
      simpa using this
    have hset : ∀ w : α, (((x :: r).reverse) ++ junk :: suf).set (r.length + 1) w
        = r.reverse ++ x :: w :: suf := by
      intro w
      have : (r.reverse ++ [x]).length = r.length + 1 := by simp
      rw [List.reverse_cons, List.set_append_right _ _ (by omega)]
      simp
    simp only [List.length_cons, unguardedLinearInsert, hx, insRev]
    split_ifs with hc
    · rw [hset x, ih x (x :: suf)]
      simp
    · rw [hset val]
      simp

theorem insRev_length {α : Type} (comp : α → α → Bool) (val : α) (r : List α) :
    (insRev comp val r).length = r.length + 1 := by
  induction r with
  | nil => rfl
  | cons x r ih =>
    simp only [insRev]
    split_ifs <;> simp [ih]

theorem insRev_perm {α : Type} (comp : α → α → Bool) (val : α) (r : List α) :
    (insRev comp val r).Perm (val :: r) := by
  induction r with
  | nil => exact List.Perm.refl _
  | cons x r ih =>
    simp only [insRev]
    split_ifs
    · exact (ih.cons x).trans (List.Perm.swap _ _ _)
    · exact List.Perm.refl _

theorem insertUnguarded_length {α : Type} (comp : α → α → Bool) (val : α) (pre : List α) :
    (insertUnguarded comp val pre).length = pre.length + 1 := by
  simp [insertUnguarded, insRev_length]

theorem insertSorted_length {α : Type} (comp : α → α → Bool) (val : α) (pre : List α) :
    (insertSorted comp val pre).length = pre.length + 1 := by
  cases pre with
  | nil => rfl
  | cons x0 pre =>
    simp only [insertSorted]
    split_ifs
    · simp
    · rw [insertUnguarded_length]

theorem insertUnguarded_perm {α : Type} (comp : α → α → Bool) (val : α) (pre : List α) :
    (insertUnguarded comp val pre).Perm (pre ++ [val]) := by
  unfold insertUnguarded
  refine (List.reverse_perm _).trans ((insRev_perm comp val pre.reverse).trans ?_)
  exact ((List.reverse_perm pre).cons val).trans (List.perm_append_singleton val pre).symm

theorem insertSorted_perm {α : Type} (comp : α → α → Bool) (val : α) (pre : List α) :
    (insertSorted comp val pre).Perm (pre ++ [val]) := by
  cases pre with
  | nil => exact List.Perm.refl _
  | cons x0 pre =>
    simp only [insertSorted]
    split_ifs
    · exact (List.perm_append_singleton val (x0 :: pre)).symm
    · exact insertUnguarded_perm _ _ _

theorem unguardedInsertionStep_eq {α : Type} (comp : α → α → Bool) (pre : List α) (val : α)
    (suf : List α) :
    unguardedInsertionStep comp (pre ++ val :: suf) pre.length
      = insertUnguarded comp val pre ++ suf := by
  have hv : (pre ++ val :: suf)[pre.length]? = some val :=
    getElem?_append_cons_length pre val suf
  simp only [unguardedInsertionStep, hv, insertUnguarded]
  have := unguardedLinearInsert_eq comp val pre.reverse val suf
  simpa using this

theorem insertionStep_eq {α : Type} (comp : α → α → Bool) (x0 : α) (pre : List α) (val : α)
    (suf : List α) :
    insertionStep comp ((x0 :: pre) ++ val :: suf) (x0 :: pre).length
      = insertSorted comp val (x0 :: pre) ++ suf := by
  have hv : ((x0 :: pre) ++ val :: suf)[(x0 :: pre).length]? = some val :=
    getElem?_append_cons_length (x0 :: pre) val suf
  have h0 : ((x0 :: pre) ++ val :: suf)[0]? = some x0 := by simp
  have hc : compAt comp ((x0 :: pre) ++ val :: suf) (x0 :: pre).length 0 = comp val x0 := by
    simp only [compAt, hv, h0]
  simp only [insertionStep, hv, hc, insertSorted]
  split_ifs
  · simp
  · have := unguardedLinearInsert_eq comp val (x0 :: pre).reverse val suf
    simpa [insertUnguarded] using this

theorem foldl_insertionStep {α : Type} (comp : α → α → Bool) (mid : List α) (x0 : α)
    (pre rest : List α) :
    (List.range' (x0 :: pre).length mid.length).foldl (insertionStep comp)
        ((x0 :: pre) ++ (mid ++ rest))
      = mid.foldl (fun p v => insertSorted comp v p) (x0 :: pre) ++ rest := by
  induction mid generalizing x0 pre with
  | nil => simp
  | cons v mid ih =>
    simp only [List.length_cons, List.range'_succ, List.foldl_cons, List.cons_append]
    have hstep := insertionStep_eq comp x0 pre v (mid ++ rest)
    simp only [List.length_cons, List.cons_append] at hstep
    rw [hstep]
    have hlen := insertSorted_length comp v (x0 :: pre)
    cases hq : insertSorted comp v (x0 :: pre) with
    | nil => rw [hq] at hlen; simp at hlen
    | cons y0 q =>
      rw [hq] at hlen
      simp only [List.length_cons] at hlen
      have := ih y0 q
      simp only [List.length_cons, List.cons_append] at this
      rw [hlen] at this
      exact this

theorem foldl_unguardedInsertionStep {α : Type} (comp : α → α → Bool) (mid pre rest : List α) :
    (List.range' pre.length mid.length).foldl (unguardedInsertionStep comp)
        (pre ++ (mid ++ rest))
      = mid.foldl (fun p v => insertUnguarded comp v p) pre ++ rest := by
  induction mid generalizing pre with
  | nil => simp
  | cons v mid ih =>
    simp only [List.length_cons, List.range'_succ, List.foldl_cons, List.cons_append]
    rw [unguardedInsertionStep_eq comp pre v (mid ++ rest)]
    have := ih (insertUnguarded comp v pre)
    rw [insertUnguarded_length] at this
    exact this

/-- The final insertion sort as successive insertions into the sorted front
part: the first 16 positions by `__insertion_sort`, the rest unguarded. -/
theorem finalInsertionSort_eq {α : Type} (comp : α → α → Bool) (x0 : α) (t : List α) :
    finalInsertionSort comp (x0 :: t)
      = (t.drop 15).foldl (fun p v => insertUnguarded comp v p)
          ((t.take 15).foldl (fun p v => insertSorted comp v p) [x0]) := by
  unfold finalInsertionSort
  split_ifs with h
  · simp only [List.length_cons] at h
    have h15 : (t.take 15).length = 15 := by simp; omega
    have e1 := foldl_insertionStep comp (t.take 15) x0 [] (t.drop 15)
    simp only [List.length_cons, List.length_nil, h15, List.take_append_drop, Nat.zero_add]
      at e1
    simp only [List.singleton_append] at e1
    rw [e1]
    have hlen : ∀ (m : List α) (p : List α),
        (m.foldl (fun p v => insertSorted comp v p) p).length = p.length + m.length := by
      intro m
      induction m with
      | nil => simp
      | cons v m ihm =>
        intro p
        simp only [List.foldl_cons, ihm, insertSorted_length, List.length_cons]
        omega
    have e2 := foldl_unguardedInsertionStep comp (t.drop 15)
      ((t.take 15).foldl (fun p v => insertSorted comp v p) [x0]) []
    simp only [hlen, h15, List.length_singleton, List.append_nil, List.length_drop] at e2
    simp only [List.length_cons]
    have e3 : t.length + 1 - 16 = t.length - 15 := by omega
    rw [e3]
    exact e2
  · simp only [List.length_cons, not_lt] at h
    have ht : t.take 15 = t := List.take_of_length_le (by omega)
    have hd : t.drop 15 = [] := List.drop_of_length_le (by omega)
    rw [ht, hd]
    have e1 := foldl_insertionStep comp t x0 [] []
    simpa using e1

/-! ## Helper lemmas: order and ties under `sortComp` -/

theorem insRev_sorted (val : BamDamEntry) (r : List BamDamEntry)
    (h : r.Pairwise (fun x y => x.fileTimeRaw ≤ y.fileTimeRaw)) :
    (insRev sortComp val r).Pairwise (fun x y => x.fileTimeRaw ≤ y.fileTimeRaw) := by
  induction r with
  | nil => simp [insRev]
  | cons x r ih =>
    obtain ⟨hx, hr⟩ := List.pairwise_cons.1 h
    simp only [insRev, sortComp, decide_eq_true_eq]
    split_ifs with hc
    · refine List.pairwise_cons.2 ⟨?_, ih hr⟩
      intro y hy
      rcases List.mem_cons.1 ((insRev_perm sortComp val r).mem_iff.1 hy) with rfl | hy
      · omega
      · exact hx y hy
    · refine List.pairwise_cons.2 ⟨?_, h⟩
      intro y hy
      rcases List.mem_cons.1 hy with rfl | hy
      · omega
      · have := hx y hy
        omega

theorem insRev_filter (val : BamDamEntry) (r : List BamDamEntry) (t : Nat) :
    ((insRev sortComp val r).reverse).filter (fun e => decide (e.fileTimeRaw = t))
      = (r.reverse ++ [val]).filter (fun e => decide (e.fileTimeRaw = t)) := by
  induction r with
  | nil => simp [insRev]
  | cons x r ih =>
    simp only [insRev, sortComp, decide_eq_true_eq]
    split_ifs with hc
    · simp only [List.reverse_cons, List.filter_append, ih, List.append_assoc]
      congr 1
      by_cases hv : val.fileTimeRaw = t
      · have hx : ¬ x.fileTimeRaw = t := by omega
        simp [List.filter_cons, hv, hx]
      · simp [List.filter_cons, hv]
    · simp

theorem insertUnguarded_sorted (val : BamDamEntry) (pre : List BamDamEntry)
    (h : pre.Pairwise (fun x y => y.fileTimeRaw ≤ x.fileTimeRaw)) :
    (insertUnguarded sortComp val pre).Pairwise (fun x y => y.fileTimeRaw ≤ x.fileTimeRaw) := by
  unfold insertUnguarded
  rw [List.pairwise_reverse]
  exact insRev_sorted val pre.reverse (List.pairwise_reverse.2 h)

theorem insertUnguarded_filter (val : BamDamEntry) (pre : List BamDamEntry) (t : Nat) :
    (insertUnguarded sortComp val pre).filter (fun e => decide (e.fileTimeRaw = t))
      = (pre ++ [val]).filter (fun e => decide (e.fileTimeRaw = t)) := by
  have := insRev_filter val pre.reverse t
  simpa [insertUnguarded] using this

theorem insertSorted_sorted (val : BamDamEntry) (pre : List BamDamEntry)
    (h : pre.Pairwise (fun x y => y.fileTimeRaw ≤ x.fileTimeRaw)) :
    (insertSorted sortComp val pre).Pairwise (fun x y => y.fileTimeRaw ≤ x.fileTimeRaw) := by
  cases pre with
  | nil => simp [insertSorted]
  | cons x0 pre =>
    simp only [insertSorted]
    split_ifs with hc
    · simp only [sortComp, decide_eq_true_eq] at hc
      obtain ⟨hx, _⟩ := List.pairwise_cons.1 h
      refine List.pairwise_cons.2 ⟨?_, h⟩
      intro y hy
      rcases List.mem_cons.1 hy with rfl | hy
      · omega
      · have := hx y hy
        omega
    · exact insertUnguarded_sorted val _ h

theorem insertSorted_filter (val : BamDamEntry) (pre : List BamDamEntry) (t : Nat)
    (h : pre.Pairwise (fun x y => y.fileTimeRaw ≤ x.fileTimeRaw)) :
    (insertSorted sortComp val pre).filter (fun e => decide (e.fileTimeRaw = t))
      = (pre ++ [val]).filter (fun e => decide (e.fileTimeRaw = t)) := by
  cases pre with
  | nil => simp [insertSorted]
  | cons x0 pre =>
    simp only [insertSorted]
    split_ifs with hc
    · simp only [sortComp, decide_eq_true_eq] at hc
      obtain ⟨hx, _⟩ := List.pairwise_cons.1 h
      by_cases hv : val.fileTimeRaw = t
      · have hnone : (x0 :: pre).filter (fun e => decide (e.fileTimeRaw = t)) = [] := by
          rw [List.filter_eq_nil_iff]
          intro y hy
          rcases List.mem_cons.1 hy with rfl | hy
          · simp only [decide_eq_true_eq]; omega
          · have := hx y hy
            simp only [decide_eq_true_eq]; omega
        rw [List.filter_append, hnone, List.filter_cons, hnone]
        simp [hv]
      · rw [List.filter_append, List.filter_cons]
        simp [hv]
    · exact insertUnguarded_filter val _ t

theorem foldl_insertSorted_spec (mid pre : List BamDamEntry)
    (h : pre.Pairwise (fun x y => y.fileTimeRaw ≤ x.fileTimeRaw)) :
    (mid.foldl (fun p v => insertSorted sortComp v p) pre).Pairwise
        (fun x y => y.fileTimeRaw ≤ x.fileTimeRaw)
    ∧ ∀ t, (mid.foldl (fun p v => insertSorted sortComp v p) pre).filter
          (fun e => decide (e.fileTimeRaw = t))
        = (pre ++ mid).filter (fun e => decide (e.fileTimeRaw = t)) := by
  induction mid generalizing pre with
  | nil => exact ⟨h, fun t => by simp⟩
  | cons v mid ih =>
    obtain ⟨h1, h2⟩ := ih (insertSorted sortComp v pre) (insertSorted_sorted v pre h)
    refine ⟨h1, fun t => ?_⟩
    simp only [List.foldl_cons]
    rw [h2 t, List.filter_append, insertSorted_filter v pre t h, ← List.filter_append]
    simp

theorem foldl_insertUnguarded_spec (mid pre : List BamDamEntry)
    (h : pre.Pairwise (fun x y => y.fileTimeRaw ≤ x.fileTimeRaw)) :
    (mid.foldl (fun p v => insertUnguarded sortComp v p) pre).Pairwise
        (fun x y => y.fileTimeRaw ≤ x.fileTimeRaw)
    ∧ ∀ t, (mid.foldl (fun p v => insertUnguarded sortComp v p) pre).filter
          (fun e => decide (e.fileTimeRaw = t))
        = (pre ++ mid).filter (fun e => decide (e.fileTimeRaw = t)) := by
  induction mid generalizing pre with
  | nil => exact ⟨h, fun t => by simp⟩
  | cons v mid ih =>
    obtain ⟨h1, h2⟩ := ih (insertUnguarded sortComp v pre) (insertUnguarded_sorted v pre h)
    refine ⟨h1, fun t => ?_⟩
    simp only [List.foldl_cons]
    rw [h2 t, List.filter_append, insertUnguarded_filter v pre t, ← List.filter_append]
    simp

theorem foldl_insertSorted_perm {α : Type} (comp : α → α → Bool) (mid pre : List α) :
    (mid.foldl (fun p v => insertSorted comp v p) pre).Perm (pre ++ mid) := by
  induction mid generalizing pre with
  | nil => simp
  | cons v mid ih =>
    simp only [List.foldl_cons]
    refine (ih _).trans ?_
    have := (insertSorted_perm comp v pre).append_right mid
    simpa using this

theorem foldl_insertUnguarded_perm {α : Type} (comp : α → α → Bool) (mid pre : List α) :
    (mid.foldl (fun p v => insertUnguarded comp v p) pre).Perm (pre ++ mid) := by
  induction mid generalizing pre with
  | nil => simp
  | cons v mid ih =>
    simp only [List.foldl_cons]
    refine (ih _).trans ?_
    have := (insertUnguarded_perm comp v pre).append_right mid
    simpa using this

theorem finalInsertionSort_perm {α : Type} (comp : α → α → Bool) (a : List α) :
    (finalInsertionSort comp a).Perm a := by
  cases a with
  | nil => simp [finalInsertionSort]
  | cons x0 t =>
    rw [finalInsertionSort_eq]
    refine (foldl_insertUnguarded_perm comp _ _).trans ?_
    refine ((foldl_insertSorted_perm comp _ _).append_right _).trans ?_
    simp

/-- The final insertion sort leaves the range ordered by `sortComp` and keeps
the order of the entries of equal raw timestamp. -/
theorem finalInsertionSort_spec (a : List BamDamEntry) :
    (finalInsertionSort sortComp a).Pairwise (fun x y => y.fileTimeRaw ≤ x.fileTimeRaw)
    ∧ ∀ t, (finalInsertionSort sortComp a).filter (fun e => decide (e.fileTimeRaw = t))
        = a.filter (fun e => decide (e.fileTimeRaw = t)) := by
  cases a with
  | nil => simp [finalInsertionSort]
  | cons x0 t =>
    rw [finalInsertionSort_eq]
    obtain ⟨h1, h2⟩ := foldl_insertSorted_spec (t.take 15) [x0] (by simp)
    obtain ⟨h3, h4⟩ := foldl_insertUnguarded_spec (t.drop 15) _ h1
    refine ⟨h3, fun k => ?_⟩
    rw [h4 k, List.filter_append, h2 k, ← List.filter_append]
    simp

theorem stdSort_perm {α : Type} (comp : α → α → Bool) (a : List α) :
    (stdSort comp a).Perm a := by
  unfold stdSort
  split_ifs
  · exact List.Perm.refl _
  · exact (finalInsertionSort_perm comp _).trans (introsortLoop_perm comp _ a)

theorem OnSort_sorted (entries : List BamDamEntry) :
    (OnSort entries).Pairwise (fun x y => y.fileTimeRaw ≤ x.fileTimeRaw) := by
  unfold OnSort stdSort
  split_ifs with h
  · have : entries = [] := List.isEmpty_iff.1 h
    subst this
    exact List.Pairwise.nil
  · exact (finalInsertionSort_spec _).1

/-! ## C5 -/

/-- C5. For every non-empty store, the store after `OnSort` is a permutation of
the store before the call (records unaltered), has `fileTimeRaw` non-increasing
from first to last, and therefore has every record with `fileTimeRaw = 0` at a
later position than every record with `fileTimeRaw ≠ 0`. -/
theorem sort_perm_descending (before : List BamDamEntry) (hne : before ≠ []) :
    (OnSort before).Perm before
    ∧ (OnSort before).Pairwise (fun x y => y.fileTimeRaw ≤ x.fileTimeRaw)
    ∧ ∀ i j : Fin (OnSort before).length,
        ((OnSort before).get i).fileTimeRaw ≠ 0 → ((OnSort before).get j).fileTimeRaw = 0 →
        i < j := by
  have hemp : before.isEmpty = false := by
    cases before with
    | nil => exact absurd rfl hne
    | cons a t => rfl
  have hpw := OnSort_sorted before
  have hperm : (OnSort before).Perm before := by
    simp only [OnSort, hemp]
    exact stdSort_perm sortComp before
  refine ⟨hperm, hpw, ?_⟩
  intro i j hi hj
  by_contra hlt
  rcases Nat.lt_or_ge i.val j.val with h | h
  · exact hlt h
  · rcases Nat.eq_or_lt_of_le h with h | h
    · have : i = j := Fin.ext h.symm
      subst this
      exact hi hj
    · have := List.pairwise_iff_get.1 hpw j i h
      omega

/-- Witness of C5: sorting the three-record store `[recZero, recOld, recNew]`. -/
theorem sort_perm_descending_witness :
    (OnSort [recZero, recOld, recNew]).Perm [recZero, recOld, recNew]
    ∧ (OnSort [recZero, recOld, recNew]).Pairwise (fun x y => y.fileTimeRaw ≤ x.fileTimeRaw)
    ∧ ∀ i j : Fin (OnSort [recZero, recOld, recNew]).length,
        ((OnSort [recZero, recOld, recNew]).get i).fileTimeRaw ≠ 0 →
        ((OnSort [recZero, recOld, recNew]).get j).fileTimeRaw = 0 → i < j :=
  sort_perm_descending [recZero, recOld, recNew] (by decide)

/-! ## C6 -/

theorem mem_keys_mapIncr (m : List (String × Int)) (key k : String) :
    k ∈ (mapIncr m key).map Prod.fst ↔ k = key ∨ k ∈ m.map Prod.fst := by
  induction m with
  | nil => simp [mapIncr]
  | cons p rest ih =>
    obtain ⟨k0, v0⟩ := p
    simp only [mapIncr]
    split_ifs with h1 h2
    · subst h1
      simp
    · simp
    · simp only [List.map_cons, List.mem_cons, ih]
      tauto

theorem sum_mapIncr (m : List (String × Int)) (key : String) :
    ((mapIncr m key).map Prod.snd).sum = (m.map Prod.snd).sum + 1 := by
  induction m with
  | nil => simp [mapIncr]
  | cons p rest ih =>
    obtain ⟨k0, v0⟩ := p
    simp only [mapIncr]
    split_ifs with h1 h2
    · simp only [List.map_cons, List.sum_cons]
      omega
    · simp only [List.map_cons, List.sum_cons]
      omega
    · simp only [List.map_cons, List.sum_cons, ih]
      omega

theorem sorted_mapIncr (m : List (String × Int)) (key : String)
    (h : (m.map Prod.fst).Pairwise (· < ·)) :
    ((mapIncr m key).map Prod.fst).Pairwise (· < ·) := by
  induction m with
  | nil => simp [mapIncr]
  | cons p rest ih =>
    obtain ⟨k0, v0⟩ := p
    simp only [List.map_cons, List.pairwise_cons] at h
    obtain ⟨hk, hrest⟩ := h
    simp only [mapIncr]
    split_ifs with h1 h2
    · simp only [List.map_cons, List.pairwise_cons]
      exact ⟨hk, hrest⟩
    · simp only [List.map_cons, List.pairwise_cons, List.mem_cons]
      refine ⟨?_, hk, hrest⟩
      rintro a (rfl | ha)
      · exact h2
      · exact lt_trans h2 (hk a ha)
    · have hlt : k0 < key := lt_of_le_of_ne (not_lt.1 h2) (Ne.symm h1)
      simp only [List.map_cons, List.pairwise_cons]
      refine ⟨?_, ih hrest⟩
      intro a ha
      rcases (mem_keys_mapIncr rest key a).1 ha with rfl | ha
      · exact hlt
      · exact hk a ha

theorem lookup_eq_none_of_not_mem (m : List (String × Int)) (k : String)
    (h : k ∉ m.map Prod.fst) : List.lookup k m = none := by
  induction m with
  | nil => rfl
  | cons p rest ih =>
    obtain ⟨k0, v0⟩ := p
    simp only [List.map_cons, List.mem_cons, not_or] at h
    have hne : (k == k0) = false := by simpa using h.1
    simp only [List.lookup, hne]
    exact ih h.2

theorem lookup_mapIncr (m : List (String × Int)) (key k : String)
    (h : (m.map Prod.fst).Pairwise (· < ·)) :
    (List.lookup k (mapIncr m key)).getD 0
      = (List.lookup k m).getD 0 + if k = key then 1 else 0 := by
  induction m with
  | nil =>
    by_cases hk : k = key
    · simp [mapIncr, List.lookup, hk]
    · have : (k == key) = false := by simpa using hk
      simp [mapIncr, List.lookup, hk, this]
  | cons p rest ih =>
    obtain ⟨k0, v0⟩ := p
    simp only [List.map_cons, List.pairwise_cons] at h
    obtain ⟨hk0, hrest⟩ := h
    by_cases hk : k = key
    · subst hk
      simp only [if_true, mapIncr]
      split_ifs with h1 h2
      · subst h1
        simp [List.lookup]
      · have hnot : k ∉ ((k0, v0) :: rest).map Prod.fst := by
          simp only [List.map_cons, List.mem_cons, not_or]
          refine ⟨h1, fun hmem => ?_⟩
          exact absurd (lt_trans h2 (hk0 k hmem)) (lt_irrefl _)
        rw [lookup_eq_none_of_not_mem _ _ hnot]
        simp [List.lookup]
      · have hb : (k == k0) = false := by simpa using h1
        simp only [List.lookup, hb]
        have := ih hrest
        simpa using this
    · have hb : (k == key) = false := by simpa using hk
      simp only [hk, if_false, mapIncr, add_zero]
      split_ifs with h1 h2
      · subst h1
        simp [List.lookup, hb]
      · simp [List.lookup, hb]
      · by_cases hkk : k = k0
        · subst hkk
          simp [List.lookup]
        · have hb2 : (k == k0) = false := by simpa using hkk
          simp only [List.lookup, hb2]
          have := ih hrest
          simpa [hk] using this

theorem lookup_of_mem_sorted (m : List (String × Int)) (k : String) (v : Int)
    (h : (m.map Prod.fst).Pairwise (· < ·)) (hmem : (k, v) ∈ m) :
    List.lookup k m = some v := by
  induction m with
  | nil => simp at hmem
  | cons p rest ih =>
    obtain ⟨k0, v0⟩ := p
    simp only [List.map_cons, List.pairwise_cons] at h
    obtain ⟨hk0, hrest⟩ := h
    rcases List.mem_cons.1 hmem with heq | hin
    · cases heq
      simp [List.lookup]
    · have hlt : k0 < k := hk0 k (List.mem_map.2 ⟨(k, v), hin, rfl⟩)
      have : (k == k0) = false := by simpa using (ne_of_lt hlt).symm
      simp only [List.lookup, this]
      exact ih hrest hin

theorem foldl_mapIncr_spec (entries : List BamDamEntry) (m : List (String × Int))
    (h : (m.map Prod.fst).Pairwise (· < ·)) :
    ((entries.foldl (fun m entry => mapIncr m entry.username) m).map Prod.fst).Pairwise (· < ·)
    ∧ (∀ k, k ∈ (entries.foldl (fun m entry => mapIncr m entry.username) m).map Prod.fst ↔
          k ∈ m.map Prod.fst ∨ ∃ e ∈ entries, e.username = k)
    ∧ (∀ k, (List.lookup k (entries.foldl (fun m entry => mapIncr m entry.username) m)).getD 0
          = (List.lookup k m).getD 0 + ((entries.filter (fun e => e.username = k)).length : Int))
    ∧ ((entries.foldl (fun m entry => mapIncr m entry.username) m).map Prod.snd).sum
          = (m.map Prod.snd).sum + (entries.length : Int) := by
  induction entries generalizing m with
  | nil => exact ⟨h, by simp, by simp, by simp⟩
  | cons e rest ih =>
    obtain ⟨h1, h2, h3, h4⟩ := ih (mapIncr m e.username) (sorted_mapIncr m e.username h)
    simp only [List.foldl_cons]
    refine ⟨h1, ?_, ?_, ?_⟩
    · intro k
      rw [h2 k, mem_keys_mapIncr]
      simp only [List.mem_cons, exists_eq_or_imp]
      constructor
      · rintro ((hk | hk) | hk)
        · exact Or.inr (Or.inl hk.symm)
        · exact Or.inl hk
        · exact Or.inr (Or.inr hk)
      · rintro (hk | hk | hk)
        · exact Or.inl (Or.inr hk)
        · exact Or.inl (Or.inl hk.symm)
        · exact Or.inr hk
    · intro k
      rw [h3 k, lookup_mapIncr m e.username k h]
      by_cases hk : k = e.username
      · subst hk
        simp [List.filter_cons]
        omega
      · have hk2 : ¬ e.username = k := fun h => hk h.symm
        simp [List.filter_cons, hk, hk2]
    · rw [h4, sum_mapIncr]
      simp only [List.length_cons]
      push_cast
      omega

/-! ## C7 -/

/-- C7. For every non-empty store, `OnFilter` builds a map `userCounts` whose
keys are exactly the distinct `username` strings of the store, each once (in
increasing order); whose value at each key is the number of records with that
username; and whose values sum to the number of records. -/
theorem aggregate_counts (entries : List BamDamEntry) (hne : entries ≠ []) :
    ∃ m : List (String × Int),
      OnFilter entries = some m
      ∧ (m.map Prod.fst).Nodup
      ∧ (m.map Prod.fst).Pairwise (· < ·)
      ∧ (∀ k, k ∈ m.map Prod.fst ↔ ∃ e ∈ entries, e.username = k)
      ∧ (∀ k v, (k, v) ∈ m → v = ((entries.filter (fun e => e.username = k)).length : Int))
      ∧ (m.map Prod.snd).sum = (entries.length : Int) := by
  have hemp : entries.isEmpty = false := by
    cases entries with
    | nil => exact absurd rfl hne
    | cons a t => rfl
  obtain ⟨h1, h2, h3, h4⟩ := foldl_mapIncr_spec entries [] (by simp)
  refine ⟨userCounts entries, by simp [OnFilter, hemp], ?_, h1, ?_, ?_, ?_⟩
  · exact h1.imp (fun {a b} hab => ne_of_lt hab)
  · intro k
    simpa using h2 k
  · intro k v hkv
    have hl := lookup_of_mem_sorted _ k v h1 hkv
    have := h3 k
    rw [hl] at this
    simpa [List.lookup] using this
  · simpa using h4

/-- Witness of C7 on a store of four records and two identities. -/
theorem aggregate_counts_witness :
    ∃ m : List (String × Int),
      OnFilter [recOld, recNew, recZero, recTie] = some m
      ∧ (m.map Prod.fst).Nodup
      ∧ (m.map Prod.fst).Pairwise (· < ·)
      ∧ (∀ k, k ∈ m.map Prod.fst ↔ ∃ e ∈ [recOld, recNew, recZero, recTie], e.username = k)
      ∧ (∀ k v, (k, v) ∈ m →
          v = (([recOld, recNew, recZero, recTie].filter (fun e => e.username = k)).length : Int))
      ∧ (m.map Prod.snd).sum = (([recOld, recNew, recZero, recTie]).length : Int) :=
  aggregate_counts [recOld, recNew, recZero, recTie] (by decide)

/-! ## C8 -/

theorem put_of_narrow (rt : WideRuntime) (csv : WOStream) (s : String)
    (hf : csv.failed = false) (hs : s.data.all rt.narrow = true) :
    csv.put rt s = { text := csv.text ++ s, failed := false } := by
  cases csv with
  | mk text failed =>
    have hf2 : failed = false := hf
    subst hf2
    simp [WOStream.put, hs]

theorem foldl_put_of_narrow (rt : WideRuntime) (pieces : List String) (csv : WOStream)
    (hf : csv.failed = false) (hs : ∀ s ∈ pieces, s.data.all rt.narrow = true) :
    pieces.foldl (WOStream.put rt) csv
      = { text := pieces.foldl (fun acc s => acc ++ s) csv.text, failed := false } := by
  induction pieces generalizing csv with
  | nil =>
    cases csv with
    | mk text failed =>
      have hf2 : failed = false := hf
      subst hf2
      rfl
  | cons s rest ih =>
    simp only [List.foldl_cons]
    rw [put_of_narrow rt csv s hf (hs s (List.mem_cons_self _ _))]
    exact ih _ rfl (fun s2 h2 => hs s2 (List.mem_cons_of_mem _ h2))

theorem writeEntry_of_narrow (rt : WideRuntime) (csv : WOStream) (e : BamDamEntry)
    (hf : csv.failed = false) (hs : (csvRow e ++ "\n").data.all rt.narrow = true) :
    writeEntry rt csv e = { text := csv.text ++ (csvRow e ++ "\n"), failed := false } := by
  simp only [csvRow, quoteField, String.intercalate, String.intercalate.go, List.map,
    String.data_append, List.all_append, Bool.and_eq_true, and_assoc] at hs
  obtain ⟨hq, hts, _, hc, _, hsid, _, _, _, huser, _, _, _, hpath, _, _, _, hsrc, _, _, _,
    hnotes, _, hn⟩ := hs
  have hq2 : ("\"" : String).data.all rt.narrow = true := hq
  have hqcq : ("\",\"" : String).data.all rt.narrow = true := by
    have e1 : ("\",\"" : String) = "\"" ++ "," ++ "\"" := by decide
    rw [e1]
    simp only [String.data_append, List.all_append, Bool.and_eq_true]
    exact ⟨⟨hq, hc⟩, hq⟩
  have hqn : ("\"\n" : String).data.all rt.narrow = true := by
    have e1 : ("\"\n" : String) = "\"" ++ "\n" := by decide
    rw [e1]
    simp only [String.data_append, List.all_append, Bool.and_eq_true]
    exact ⟨hq, hn⟩
  unfold writeEntry
  rw [foldl_put_of_narrow rt _ csv hf (by
    intro s hmem
    simp only [List.mem_cons, List.mem_singleton, List.not_mem_nil, or_false] at hmem
    rcases hmem with rfl | rfl | rfl | rfl | rfl | rfl | rfl | rfl | rfl | rfl | rfl | rfl | rfl
    · exact hq2
    · exact hts
    · exact hqcq
    · exact hsid
    · exact hqcq
    · exact huser
    · exact hqcq
    · exact hpath
    · exact hqcq
    · exact hsrc
    · exact hqcq
    · exact hnotes
    · exact hqn)]
  simp only [List.foldl_cons, List.foldl_nil]
  congr 1
  apply String.ext
  simp [csvRow, quoteField, String.intercalate, String.intercalate.go]

theorem foldl_writeEntry_of_narrow (rt : WideRuntime) (entries : List BamDamEntry)
    (csv : WOStream) (hf : csv.failed = false)
    (hs : (rowsText (entries.map csvRow)).data.all rt.narrow = true) :
    entries.foldl (writeEntry rt) csv
      = { text := csv.text ++ rowsText (entries.map csvRow), failed := false } := by
  induction entries generalizing csv with
  | nil =>
    cases csv with
    | mk text failed =>
      have hf2 : failed = false := hf
      subst hf2
      simp [rowsText]
  | cons e rest ih =>
    simp only [List.map_cons, rowsText, String.data_append, List.all_append,
      Bool.and_eq_true] at hs
    have hrow : (csvRow e ++ "\n").data.all rt.narrow = true := by
      simp only [String.data_append, List.all_append, Bool.and_eq_true]
      exact hs.1
    simp only [List.foldl_cons, List.map_cons, rowsText]
    rw [writeEntry_of_narrow rt csv e hf hrow, ih _ rfl hs.2]
    simp only [String.append_assoc]

/-- When the runtime can convert every character of the marker and of the rows,
the export of a non-empty store writes the marker followed by the header row
and one row per record, in store order. -/
theorem export_rows_of_narrow (rt : WideRuntime) (entries : List BamDamEntry)
    (hne : entries ≠ [])
    (hs : (String.mk (bomUnits rt) ++ rowsText (csvRows entries)).data.all rt.narrow = true) :
    OnExport rt entries true true
      = ExportOutcome.written (String.mk (bomUnits rt) ++ rowsText (csvRows entries)) := by
  have hemp : entries.isEmpty = false := by
    cases entries with
    | nil => exact absurd rfl hne
    | cons a t => rfl
  simp only [csvRows, rowsText, String.data_append, List.all_append, Bool.and_eq_true] at hs
  obtain ⟨hb, ⟨hh, hn⟩, hr⟩ := hs
  have hhead : ("Timestamp,SID,Username,CheminExec,Source,Notes\n" : String).data.all rt.narrow
      = true := by
    have e1 : ("Timestamp,SID,Username,CheminExec,Source,Notes\n" : String)
        = csvHeader ++ "\n" := by decide
    rw [e1]
    simp only [String.data_append, List.all_append, Bool.and_eq_true]
    exact ⟨hh, hn⟩
  have hstream : exportStream rt entries
      = { text := String.mk (bomUnits rt) ++ rowsText (csvRows entries), failed := false } := by
    simp only [exportStream]
    rw [put_of_narrow rt { text := "", failed := false } (String.mk (bomUnits rt)) rfl hb,
      put_of_narrow rt _ _ rfl hhead, foldl_writeEntry_of_narrow rt entries _ rfl hr]
    congr 1
    apply String.ext
    simp [csvRows, rowsText, csvHeader]
  simp only [OnExport, hemp, hstream]
  rfl

set_option maxRecDepth 100000 in
/-- C8 evaluated on the code: under `gnuClassic` the export of the store
`[recOld, recZero, recNew]`, whose second record carries the marker
`"Données invalides"` that `ParseBamDamKey` itself writes, ends with the stream
in its failure state and not with the header row and three data rows; the
export of `[recOld]` alone, all of whose characters are below 128, writes the
header row and the data row. -/
theorem export_fails_on_marker :
    OnExport gnuClassic [recOld, recZero, recNew] true true = ExportOutcome.conversionError
    ∧ OnExport gnuClassic [recOld] true true
        = ExportOutcome.written (rowsText (csvRows [recOld])) := by
  decide

/-! ## C9 -/

theorem wfindFrom_isSome (hay needle : List Char) (pos : Nat) :
    (wfindFrom hay needle pos).isSome ↔ needle <:+: hay := by
  induction hay generalizing pos with
  | nil =>
    by_cases h : needle = []
    · simp [wfindFrom, h]
    · simp [wfindFrom, h]
  | cons c hay ih =>
    rw [List.infix_cons_iff]
    by_cases h : needle <+: c :: hay
    · have hp : needle.isPrefixOf (c :: hay) = true := List.isPrefixOf_iff_prefix.2 h
      simp [wfindFrom, hp, h]
    · have hp : needle.isPrefixOf (c :: hay) = false := by
        cases hq : needle.isPrefixOf (c :: hay) with
        | false => rfl
        | true => exact absurd (List.isPrefixOf_iff_prefix.1 hq) h
      simp only [wfindFrom, hp, h, false_or]
      exact ih (pos + 1)

theorem wfind_isSome (s needle : String) :
    (wfind s needle).isSome ↔ needle.data <:+: s.data :=
  wfindFrom_isSome s.data needle.data 0

theorem buildEntry_notes (os : Win32) (service sid username : String) (v : RegValue) :
    ((buildEntry os service sid username v).notes = "Emplacement suspect" ↔
        ("\\Temp\\".data <:+: (buildEntry os service sid username v).executablePath.data
          ∨ "\\Downloads\\".data <:+: (buildEntry os service sid username v).executablePath.data))
    ∧ ((buildEntry os service sid username v).notes = "Emplacement suspect"
        ∨ (buildEntry os service sid username v).notes = "") := by
  simp only [buildEntry, wfind_isSome]
  split_ifs with h
  · exact ⟨⟨fun _ => h, fun _ => rfl⟩, Or.inl rfl⟩
  · have hne : ("" : String) ≠ "Emplacement suspect" := by decide
    exact ⟨⟨fun hc => absurd hc hne, fun hc => absurd hc h⟩, Or.inr rfl⟩

/-- C9. Annotation heuristic: every record that a call of `ParseBamDamKey`
adds to the store has `notes` equal to the marker `"Emplacement suspect"` if
and only if its `executablePath` contains, as a contiguous case-sensitive
substring, `\\Temp\\` or `\\Downloads\\`, and equal to the empty string otherwise;
the record built for `C:\\Temp\\x.exe` is flagged and the one for
`C:\\Windows\\y.exe` is not. -/
theorem annotation_heuristic (os : Win32) (service sid : String) (s : Store) :
    (∀ e ∈ (ParseBamDamKey os service sid s).1.entries,
      e ∈ s.entries ∨
        ((e.notes = "Emplacement suspect" ↔
            ("\\Temp\\".data <:+: e.executablePath.data
              ∨ "\\Downloads\\".data <:+: e.executablePath.data))
          ∧ (e.notes = "Emplacement suspect" ∨ e.notes = "")))
    ∧ (∀ (username : String) (ty : Nat) (P : List Byte),
        (buildEntry os service sid username ⟨"C:\\Temp\\x.exe", ty, P⟩).notes
            = "Emplacement suspect"
        ∧ (buildEntry os service sid username ⟨"C:\\Windows\\y.exe", ty, P⟩).notes = "") := by
  constructor
  · intro e he
    rcases (mem_ParseBamDamKey os service sid s e).1 he with h | ⟨key, v, _, _, _, rfl⟩
    · exact Or.inl h
    · exact Or.inr (buildEntry_notes os service sid _ v)
  · intro username ty P
    constructor
    · simp only [buildEntry]
      rw [if_pos]
      left
      decide
    · simp only [buildEntry]
      rw [if_neg]
      decide

/-- Witness of C9 on `demoOS`: the record `recOld`, added for `C:\\Temp\\x.exe`. -/
theorem annotation_heuristic_witness :
    recOld ∈ (⟨[], []⟩ : Store).entries ∨
      ((recOld.notes = "Emplacement suspect" ↔
          ("\\Temp\\".data <:+: recOld.executablePath.data
            ∨ "\\Downloads\\".data <:+: recOld.executablePath.data))
        ∧ (recOld.notes = "Emplacement suspect" ∨ recOld.notes = "")) :=
  (annotation_heuristic demoOS "bam" "S-1-5-18" ⟨[], []⟩).1 recOld (by decide)

/-! ## C10 -/

/-- C10 evaluated on the code: on `dualOS`, with one value under `bam` and one
under `dam`, the records of the store after `ParseBamDam` carry the sources
`"bam"` and `"dam"`, the lower-case service strings, neither of which is
`"BAM"` or `"DAM"`. -/
theorem source_tag_lower_case :
    (ParseBamDam dualOS ⟨[], []⟩).1.entries.map (fun e => e.source) = ["bam", "dam"]
    ∧ "bam" ≠ "BAM" ∧ "bam" ≠ "DAM" ∧ "dam" ≠ "BAM" ∧ "dam" ≠ "DAM" := by
  decide

/-! ## C11 -/

theorem sidLookups_ParseBamDamKey (os : Win32) (service sid : String) (s : Store) :
    (ParseBamDamKey os service sid s).1.sidLookups
      = s.sidLookups
          ++ (if (os.RegOpenKeyExW (subkeyPath service sid)).isSome then [sid] else []) := by
  unfold ParseBamDamKey
  cases hopen : os.RegOpenKeyExW (subkeyPath service sid) with
  | none => simp
  | some key => simp

theorem sidLookups_enumSids (os : Win32) (service : String) (l : List (EnumResult String))
    (s : Store) :
    (enumSids os service l s).sidLookups
      = s.sidLookups ++ l.filterMap (fun r =>
          match r with
          | .failure _ => none
          | .success sid =>
            if (os.RegOpenKeyExW (subkeyPath service sid)).isSome then some sid else none) := by
  induction l generalizing s with
  | nil => simp [enumSids]
  | cons r rest ih =>
    cases r with
    | failure c => simp [enumSids, ih]
    | success sid =>
      simp only [enumSids, ih, sidLookups_ParseBamDamKey, List.filterMap_cons]
      by_cases h : (os.RegOpenKeyExW (subkeyPath service sid)).isSome
      · simp [h]
      · simp [h]

theorem sidLookups_parseService (os : Win32) (s : Store) (service : String) :
    (parseService os s service).sidLookups = s.sidLookups ++ openedSids os service := by
  unfold parseService openedSids
  cases hopen : os.RegOpenKeyExW (basePath service) with
  | none => simp
  | some keyBase => simp [sidLookups_enumSids]

/-- C11, as stated, fails on the code: on `dualOS` the SID `S-1-5-18` has a
subkey under both `bam` and `dam`, and one call of `ParseBamDam` passes it to
`SidToUsername` twice, so the sequence of resolved SIDs has a duplicate. -/
theorem resolver_called_twice_counterexample :
    (ParseBamDam dualOS ⟨[], []⟩).1.sidLookups = ["S-1-5-18", "S-1-5-18"]
    ∧ ¬ (ParseBamDam dualOS ⟨[], []⟩).1.sidLookups.Nodup := by
  decide

/-- C11 (amended). During one call of `ParseBamDam`, `SidToUsername` is invoked
exactly once for each SID subkey that is enumerated and opens, namespace by
namespace (`bam` first, then `dam`) in enumeration order and whatever the
number of values under the subkey: the SIDs passed to the resolver are the
opened SID subkeys of `bam` followed by those of `dam`. -/
theorem resolver_called_once_per_key (os : Win32) (s : Store) :
    (ParseBamDam os s).1.sidLookups
      = s.sidLookups ++ openedSids os "bam" ++ openedSids os "dam" := by
  simp only [ParseBamDam, services, List.foldl_cons, List.foldl_nil, sidLookups_parseService]

end BamDamForensics
